import Mathlib

/-!
# Verification of the kvlayer storage abstraction

Shallow embedding of the kvlayer key/value storage library and proofs about
its backends.  The embedding covers:

* the relational (PostgreSQL) backend `kvlayer/_postgres.py`: the chunked
  ordered scan loop (`PGStorage._scan_subscan_kminmax` / `_scan_kminmax`),
  point `get`, `put` with the `detatch_on_exception` wrapper, namespace
  lifecycle, and namespace-name validation;
* the wide-column (HBase) backend `kvlayer/_hbase.py`: byte-capped batched
  `put`, native ordered range scan, `get` via a `(k, k)` scan, and the
  namespace lifecycle;
* the file backend `src/kvlayer/_file_storage.py` (`FileStorage`): its
  `setup_namespace` and ranged `get`.

Keys are modelled by an arbitrary linearly ordered type `α` standing for
encoded key byte strings under their lexicographic (SQL `bytea` / HBase row)
order; values are byte strings modelled as `List Nat` so that value sizes
(`len(value)`, compared against `MAX_BLOB_BYTES`) are meaningful.
-/

namespace Kvlayer

/-- `MAX_BLOB_BYTES` from `kvlayer/_postgres.py` (line 100): rows whose
value is strictly larger than this are skipped by `get` and by the scan
loop. -/
def MAX_BLOB_BYTES : Nat := 15000000

/-- Boolean test that a list of rows (key/value pairs) has strictly
ascending keys.  This models the ordering invariant the SQL index on
primary key `(t, k)` maintains for `kv_{namespace}` and that an HBase
table maintains for its rows: one row per key, rows ordered by key. -/
def keysSorted {α : Type} [LinearOrder α] {ν : Type} : List (α × ν) → Bool
  | [] => true
  | [_] => true
  | a :: b :: t => decide (a.1 < b.1) && keysSorted (b :: t)

/-- Membership test of a SQL `WHERE` clause `k >= kmin AND k <= kmax` where
either bound may be absent (the `_GET_RANGE`, `_GET_RANGE_FROM_START`,
`_GET_RANGE_TO_END`, `_GET_ALL` statements of `kvlayer/_postgres.py`,
lines 86-89). -/
def inRange {α : Type} [LinearOrder α] (kmin kmax : Option α) (k : α) : Bool :=
  (match kmin with
   | none => true
   | some m => decide (m ≤ k)) &&
  (match kmax with
   | none => true
   | some M => decide (k ≤ M))

/-- One SQL chunk query: `SELECT k, v ... WHERE t = %s [AND k >= kmin]
[AND k <= kmax] ORDER BY k ASC LIMIT K`, executed against the table `tbl`
(given in ascending key order, as the database index stores it). -/
def sqlChunk {α : Type} [LinearOrder α] (tbl : List (α × List Nat))
    (kmin kmax : Option α) (K : Nat) : List (α × List Nat) :=
  (tbl.filter (fun r => inRange kmin kmax r.1)).take K

/-- The per-row size check in `PGStorage._scan_kminmax` (and `get`): a row
is passed on only if `len(val) <= MAX_BLOB_BYTES`; larger rows are dropped
with `continue`. -/
def blobOK {α : Type} (r : α × List Nat) : Bool :=
  decide (r.2.length ≤ MAX_BLOB_BYTES)

/-- `PGStorage._scan_kminmax`: one chunk query followed by the python loop
that yields each row, skipping rows whose blob exceeds `MAX_BLOB_BYTES`. -/
def scanKminmax {α : Type} [LinearOrder α] (tbl : List (α × List Nat))
    (kmin kmax : Option α) (K : Nat) : List (α × List Nat) :=
  (sqlChunk tbl kmin kmax K).filter blobOK

/-- The edge de-duplication in `PGStorage._scan_subscan_kminmax`: each row
is yielded unless its key equals the previous row's key (`prevkey`), and
`prevkey` is updated to the current key after every row. -/
def dedupYield {α : Type} [DecidableEq α] :
    Option α → List (α × List Nat) → List (α × List Nat)
  | _, [] => []
  | prev, r :: rest =>
    (if prev = some r.1 then [] else [r]) ++ dedupYield (some r.1) rest

/-- The value of `prevkey` after iterating over a chunk: the key of the
last row if the chunk is nonempty, otherwise the incoming `prevkey`. -/
def lastKey {α : Type} {ν : Type} (prev : Option α) (l : List (α × ν)) : Option α :=
  match l.getLast? with
  | some r => some r.1
  | none => prev

/-- `PGStorage._scan_subscan_kminmax`: the `while True` chunking loop.
Each round issues one chunk query (`scanKminmax`), yields its rows with
edge de-duplication, and stops when the chunk produced strictly fewer than
`K` rows; otherwise it re-anchors the lower bound at the last key returned
(`kmin = split_key(prevkey, key_spec)`, which `make_start_key` turns back
into an inclusive `k >= prevkey` bound) and loops.  The loop has no bound
in the source; `fuel` counts remaining rounds, and the returned flag is
`true` iff the loop reached its termination condition within `fuel`
rounds.  A result flag of `false` for every `fuel` means the source loop
runs forever. -/
def subscanFuel {α : Type} [LinearOrder α] (tbl : List (α × List Nat))
    (kmax : Option α) (K : Nat) :
    Nat → Option α → Option α → List (α × List Nat) × Bool
  | 0, _, _ => ([], false)
  | fuel + 1, kmin, prev =>
    let rows := scanKminmax tbl kmin kmax K
    let ys := dedupYield prev rows
    if rows.length < K then
      (ys, true)
    else
      let prev' := lastKey prev rows
      let out := subscanFuel tbl kmax K fuel prev' prev'
      (ys ++ out.1, out.2)

/-- One range of `PGStorage.scan`: the subscan starting from the caller's
range with `prevkey = None`.  The source loop is unbounded; `tbl.length + 2`
rounds are enough whenever the loop terminates at all (each full chunk of
`K ≥ 2` rows advances the anchor past at least one row). -/
def pgScanRange {α : Type} [LinearOrder α] (tbl : List (α × List Nat))
    (kmin kmax : Option α) (K : Nat) : List (α × List Nat) × Bool :=
  subscanFuel tbl kmax K (tbl.length + 2) kmin none

/-- Spec-side description of one de-duplication step: the first row is
dropped when its key equals the previously returned key.  On a strictly
sorted chunk this is exactly what `dedupYield` does. -/
def dropPrev {α : Type} [DecidableEq α] (prev : Option α) :
    List (α × List Nat) → List (α × List Nat)
  | [] => []
  | r :: rest => if prev = some r.1 then rest else r :: rest

/-- `PGStorage.get`: for each requested key, execute the point query
`_GET` (`... WHERE t = %s AND k = %s`); when it returns no row, yield
`(key, None)`; otherwise loop over the returned rows, skipping any row
whose blob exceeds `MAX_BLOB_BYTES` (`continue` — such a key yields
nothing at all) and yielding `(key, value)` for the rest. -/
def pgGet {α : Type} [DecidableEq α] (store : List (α × List Nat)) (keys : List α) :
    List (α × Option (List Nat)) :=
  keys.flatMap (fun k =>
    if (store.filter (fun r => decide (r.1 = k))).isEmpty then [(k, none)]
    else (store.filter (fun r => decide (r.1 = k))).filterMap (fun r =>
      if MAX_BLOB_BYTES < r.2.length then none else some (r.1, some r.2)))

/-- Spec-side point lookup: the value stored for `k`, if any. -/
def pgLookup {α : Type} [DecidableEq α] (store : List (α × List Nat)) (k : α) :
    Option (List Nat) :=
  ((store.filter (fun r => decide (r.1 = k))).head?).map (fun r => r.2)

/-- Modelled from the spec (§4.8, §4.1): the native scanner used by
`HBaseStorage.scan` returns the table's rows from the half-open encoded
range `[row_start, row_stop)` in ascending row-key order.
`make_start_key` / `make_end_key` (in `kvlayer._utils`, which is not under
`src/`) map the start tuple to its least encoded key and the stop tuple to
an inclusive upper bound (strictly above every encoded key with that
prefix), so at the key level the scanned range is inclusive on both
sides; an absent bound means "from the first row" / "to the last row". -/
def hbaseScan {α : Type} [LinearOrder α] {ν : Type} (tbl : List (α × ν))
    (srow erow : Option α) : List (α × ν) :=
  tbl.filter (fun r => inRange srow erow r.1)

/-- `HBaseStorage.get`: for each requested key, scan the range
`(key, key)` and keep the value of the last row whose key equals the
requested key (`v = None; for kk, vv in gen: if kk == key: v = vv`),
yielding `(key, v)`. -/
def hbaseGet {α : Type} [LinearOrder α] {ν : Type} (tbl : List (α × ν)) (keys : List α) :
    List (α × Option ν) :=
  keys.map (fun k =>
    (k, (hbaseScan tbl (some k) (some k)).foldl
          (fun v r => if r.1 = k then some r.2 else v) none))

/-- Spec-side lookup for the wide-column table. -/
def hbLookup {α : Type} [DecidableEq α] {ν : Type} (tbl : List (α × ν)) (k : α) :
    Option ν :=
  ((tbl.filter (fun r => decide (r.1 = k))).getLast?).map (fun r => r.2)

/-- One iteration of the batching loop in `HBaseStorage.put`.  The state
is `(sent batches, current batch, cur_bytes)`; for the next serialized
item `kv = (skey, blob)`, `morelen = len(blob) + len(skey)`; if
`morelen + cur_bytes >= max_batch_bytes` the pending batch is sent and a
fresh batch started; then the item is added to the (possibly fresh) batch
and `cur_bytes` increased by `morelen`. -/
def hbasePutStep (maxB : Nat) :
    List (List (List Nat × List Nat)) × List (List Nat × List Nat) × Nat →
    List Nat × List Nat →
    List (List (List Nat × List Nat)) × List (List Nat × List Nat) × Nat
  | (sent, batch, cur), kv =>
    if maxB ≤ kv.2.length + kv.1.length + cur then
      (sent ++ [batch], [kv], kv.2.length + kv.1.length)
    else
      (sent, batch ++ [kv], cur + (kv.2.length + kv.1.length))

/-- `HBaseStorage.put`: fold the batching step over the input pairs
starting from an empty batch, then send the final batch if `cur_bytes >
0`.  The result is the list of batches dispatched by `batch.send()`, in
dispatch order. -/
def hbasePut (maxB : Nat) (kvs : List (List Nat × List Nat)) :
    List (List (List Nat × List Nat)) :=
  let st := kvs.foldl (hbasePutStep maxB) ([], [], 0)
  if 0 < st.2.2 then st.1 ++ [st.2.1] else st.1

/-- Total `len(key) + len(value)` footprint of a list of pending writes,
as accumulated in `cur_bytes` by `HBaseStorage.put`. -/
def morelenSum : List (List Nat × List Nat) → Nat
  | [] => 0
  | kv :: rest => (kv.2.length + kv.1.length) + morelenSum rest

/-- The error taxonomy of the spec (§7) as surfaced by the modelled
operations: `badKey` is the source's `BadKey`, `badConfig` the namespace /
configuration `ProgrammerError`, `unknownTable` the `KeyError` from an
undeclared table name. -/
inductive KVError where
  | badKey : KVError
  | badConfig : KVError
  | unknownTable : KVError
deriving DecidableEq

/-- State of one `PGStorage` client together with the namespace table it
manages: the optional connection handle (fresh handles are numbered by
`nextConn`), whether `kv_{namespace}` and `upsert_{namespace}` exist, the
client's `_table_names` map, and the rows `(t, k, v)` of the namespace
table. -/
structure PGSt where
  connection : Option Nat
  nextConn : Nat
  nsExists : Bool
  upsertFn : Bool
  tableNames : List (String × Nat)
  rows : List (String × List Nat × List Nat)
deriving DecidableEq

/-- `PGStorage.close`: close the connection if any and clear it. -/
def pgClose (st : PGSt) : PGSt := { st with connection := none }

/-- `PGStorage._conn`: lazy connector — reuse the existing connection or
open (and remember) a fresh one. -/
def pgConnGet (st : PGSt) : Nat × PGSt :=
  match st.connection with
  | some c => (c, st)
  | none => (st.nextConn,
      { st with connection := some st.nextConn, nextConn := st.nextConn + 1 })

/-- The `detatch_on_exception` decorator of `kvlayer/_postgres.py` as it
behaves around an *eagerly executed* operation body (`put`, `delete`,
`clear_table`, `setup_namespace`, `delete_namespace`): `func(*args)` runs
the whole body inside the `try`, so if it raises anything the wrapper
calls `self.close()` (closing and clearing the connection) and re-raises
the original exception. -/
def detatchOnException {E A : Type} (f : PGSt → Except E A × PGSt) (st : PGSt) :
    Except E A × PGSt :=
  match f st with
  | (Except.ok a, st') => (Except.ok a, st')
  | (Except.error e, st') => (Except.error e, pgClose st')

/-- The same `detatch_on_exception` decorator applied to a *generator*
function — `get` and `scan` in `kvlayer/_postgres.py` contain `yield`.
Calling `func(*args)` inside the `try` merely creates the generator
object and executes none of the body, so the `except` clause can never
fire there; the body — `self._conn()` and every `cursor.execute`
included — runs later, when the caller iterates, outside the wrapper's
`try`.  An error raised during iteration therefore propagates to the
caller with no `self.close()` call: the wrapped operation behaves exactly
like the unwrapped body.  `f` is the state transformer the caller
observes by draining the generator. -/
def detatchOnExceptionGen {E A : Type} (f : PGSt → Except E A × PGSt) :
    PGSt → Except E A × PGSt :=
  f

/-- Modelled from the spec (§4.2, §7): `AbstractStorage.check_put_key_value`
(in `kvlayer._abstract_storage`, which is not under `src/`) returns a
`BadKey` error when the key tuple's arity or a field type does not match
the table's key spec, and nothing otherwise.  Keys are modelled as lists
of encoded fragments, the key spec by its arity. -/
def checkPutKeyValue (keySpec : Nat) (kv : List Nat × List Nat) : Option KVError :=
  if kv.1.length = keySpec then none else some KVError.badKey

/-- The `upsert_{namespace}` stored routine installed by
`setup_namespace`: update the row keyed `(t, k)` if present, otherwise
insert it. -/
def pgUpsert (t : String) (k v : List Nat)
    (rows : List (String × List Nat × List Nat)) :
    List (String × List Nat × List Nat) :=
  if rows.any (fun r => decide (r.1 = t) && decide (r.2.1 = k)) then
    rows.map (fun r => if r.1 = t ∧ r.2.1 = k then (t, k, v) else r)
  else rows ++ [(t, k, v)]

/-- The per-pair loop of `PGStorage.put`: validate each `(key, value)`
pair with `check_put_key_value`, raising the returned error, and call the
upsert routine for valid pairs. -/
def pgPutGo (t : String) (keySpec : Nat) :
    List (List Nat × List Nat) → PGSt → Except KVError Unit × PGSt
  | [], st => (Except.ok (), st)
  | kv :: rest, st =>
    match checkPutKeyValue keySpec kv with
    | some e => (Except.error e, st)
    | none => pgPutGo t keySpec rest { st with rows := pgUpsert t kv.1 kv.2 st.rows }

/-- Association-list lookup, modelling python dict subscripting. -/
def lookupAssoc {β : Type} (l : List (String × β)) (k : String) : Option β :=
  (l.find? (fun p => decide (p.1 = k))).map (fun p => p.2)

/-- The body of `PGStorage.put`: `key_spec = self._table_names[table_name]`
(a `KeyError` — *UnknownTable* — for an undeclared table), then the lazy
connection, then the validation/upsert loop over the pairs. -/
def pgPutBody (t : String) (kvs : List (List Nat × List Nat)) (st : PGSt) :
    Except KVError Unit × PGSt :=
  match lookupAssoc st.tableNames t with
  | none => (Except.error KVError.unknownTable, st)
  | some keySpec => pgPutGo t keySpec kvs (pgConnGet st).2

/-- `PGStorage.put` as deployed: the body wrapped in
`detatch_on_exception`. -/
def pgPut (t : String) (kvs : List (List Nat × List Nat)) (st : PGSt) :
    Except KVError Unit × PGSt :=
  detatchOnException (pgPutBody t kvs) st

/-- One entry of a python `dict.update`: replace the value of an existing
key in place, append an unknown key at the end. -/
def insertReplace (acc : List (String × Nat)) (p : String × Nat) :
    List (String × Nat) :=
  if acc.any (fun q => decide (q.1 = p.1)) then
    acc.map (fun q => if q.1 = p.1 then p else q)
  else acc ++ [p]

/-- Python `dict.update`, entry by entry. -/
def updateAssoc (l T : List (String × Nat)) : List (String × Nat) :=
  T.foldl insertReplace l

/-- `PGStorage.setup_namespace`: merge the requested tables into the
client's `_table_names`, get the lazy connection, then create the
physical `kv_{namespace}` table and `upsert_{namespace}` routine only
when the namespace table does not already exist; rows are never touched.
(`normalize_namespaces` from the missing `_abstract_storage` base only
canonicalises mapping values and is elided.) -/
def pgSetupNamespace (T : List (String × Nat)) (st : PGSt) : PGSt :=
  let st1 := { st with tableNames := updateAssoc st.tableNames T }
  let st2 := (pgConnGet st1).2
  if st2.nsExists then st2
  else { st2 with nsExists := true, upsertFn := true }

/-- `PGStorage.delete_namespace`: get the lazy connection; if the
namespace table does not exist, log and return (no-op); otherwise drop
the `upsert_{namespace}` routine and the `kv_{namespace}` table with all
its rows.  Errors during the drops are logged and swallowed, so the call
itself never raises. -/
def pgDeleteNamespace (st : PGSt) : PGSt :=
  let st1 := (pgConnGet st).2
  if st1.nsExists then
    { st1 with nsExists := false, upsertFn := false, rows := [] }
  else st1

/-- The check-then-create step of `HBaseStorage.setup_namespace`: create
the table (empty) only when it is not among the existing tables. -/
def hbCreateIfAbsent {ρ : Type} (acc : List (String × List ρ)) (t : String) :
    List (String × List ρ) :=
  if acc.any (fun q => decide (q.1 = t)) then acc else acc ++ [(t, [])]

/-- `HBaseStorage.setup_namespace`: for each requested table, create it
(as an empty table) only when it is not among the existing tables
(check-then-create, idempotent). -/
def hbSetupNamespace {ρ : Type} (tbls : List (String × List ρ)) (T : List String) :
    List (String × List ρ) :=
  T.foldl hbCreateIfAbsent tbls

/-- `HBaseStorage.delete_namespace`: disable and drop every table the
connection lists for the namespace; when none exist the loop body never
runs and the call succeeds as a no-op. -/
def hbDeleteNamespace {ρ : Type} (tbls : List (String × List ρ)) :
    List (String × List ρ) :=
  tbls.foldl (fun acc _ => acc) []

/-- `FileStorage.setup_namespace` (`src/kvlayer/_file_storage.py`): only
when the shelve store holds no table at all does it create a fresh empty
dict per requested table; once any table exists the call changes
nothing. -/
def fileSetupNamespace {ρ : Type} (data : List (String × List ρ)) (T : List String) :
    List (String × List ρ) :=
  if data.isEmpty then T.map (fun t => (t, [])) else data

/-- `FileStorage.get` (`src/kvlayer/_file_storage.py`) over explicit key
ranges: for each `(start, finish)` range collect the rows within the
bounds; a range that finds nothing raises `MissingID` (modelled as
`Except.error ()`), aborting the generator.  (The no-argument sentinel
case `[('',), ('',)]` yields the whole table and is not reachable when
the caller passes keys; keys are modelled at single-field arity, making
the per-field box check a plain interval test.) -/
def fileGet {α : Type} [LinearOrder α] {ν : Type} (data : List (α × ν)) :
    List (α × α) → Except Unit (List (α × ν))
  | [] => Except.ok []
  | (s, f) :: rest =>
    let found := data.filter (fun r => decide (s ≤ r.1) && decide (r.1 ≤ f))
    if found.isEmpty then Except.error ()
    else
      match fileGet data rest with
      | Except.ok l => Except.ok (found ++ l)
      | Except.error e => Except.error e

/-- Leading character class `[a-z_]` of `_psql_identifier_re`, with
`re.IGNORECASE`. -/
def identStart (c : Char) : Bool :=
  (decide ('a' ≤ c) && decide (c ≤ 'z')) ||
  (decide ('A' ≤ c) && decide (c ≤ 'Z')) ||
  decide (c = '_')

/-- Continuation character class `[a-z0-9_$]` of `_psql_identifier_re`,
with `re.IGNORECASE`. -/
def identCont (c : Char) : Bool :=
  identStart c || (decide ('0' ≤ c) && decide (c ≤ '9')) || decide (c = '$')

/-- Full-match semantics of the identifier regex
`[A-Za-z_][A-Za-z0-9_$]*`: the entire name is one identifier-start
character followed by identifier characters.  This is the natural reading
of "matches the identifier regex" in the specification. -/
def identFullMatch : List Char → Bool
  | [] => false
  | c :: rest => identStart c && rest.all identCont

/-- `_valid_namespace` from `kvlayer/_postgres.py`:
`bool(_psql_identifier_re.match(x))`.  Python's `re.match` anchors only at
the start of the string — it succeeds iff some leading slice matches the
pattern — and since the starred tail class `[a-z0-9_$]*` matches the
empty string, the prefix match succeeds exactly when the string is
nonempty and its first character matches the leading class (see
`validNamespace_iff_leading_match`). -/
def validNamespace : List Char → Bool
  | [] => false
  | c :: _ => identStart c

/-- `PGStorage.__init__`: validate the namespace with `_valid_namespace`,
raising the configuration error (`ProgrammerError` in the source,
*BadConfig* in the spec's taxonomy) when it fails; then require a
nonempty `storage_addresses` the same way.  A fresh client has no
connection (lazy connect). -/
def pgInit (ns : List Char) (storageAddresses : List String) : Except KVError PGSt :=
  if validNamespace ns then
    if storageAddresses.isEmpty then Except.error KVError.badConfig
    else Except.ok
      { connection := none, nextConn := 0, nsExists := false, upsertFn := false,
        tableNames := [], rows := [] }
  else Except.error KVError.badConfig

theorem keysSorted_pairwise {α : Type} [LinearOrder α] {ν : Type} :
    ∀ {l : List (α × ν)}, keysSorted l = true → l.Pairwise (fun a b => a.1 < b.1)
  | [], _ => List.Pairwise.nil
  | [_], _ => List.pairwise_singleton _ _
  | a :: b :: t, h => by
    rw [keysSorted, Bool.and_eq_true, decide_eq_true_eq] at h
    have htail := keysSorted_pairwise (l := b :: t) h.2
    refine List.Pairwise.cons ?_ htail
    intro x hx
    rcases List.mem_cons.mp hx with hx | hx
    · exact hx ▸ h.1
    · exact lt_trans h.1 (List.rel_of_pairwise_cons htail hx)

theorem dedupYield_sublist {α : Type} [DecidableEq α] :
    ∀ (prev : Option α) (l : List (α × List Nat)), (dedupYield prev l).Sublist l
  | _, [] => List.Sublist.refl _
  | prev, r :: rest => by
    rw [dedupYield]
    by_cases h : prev = some r.1
    · simp only [h, if_pos rfl, List.nil_append]
      exact (dedupYield_sublist (some r.1) rest).cons r
    · simp only [if_neg h, List.singleton_append]
      exact (dedupYield_sublist (some r.1) rest).cons₂ r

theorem dedupYield_eq_dropPrev {α : Type} [DecidableEq α] :
    ∀ (prev : Option α) (l : List (α × List Nat)),
      l.Pairwise (fun a b => a.1 ≠ b.1) → dedupYield prev l = dropPrev prev l
  | _, [], _ => rfl
  | prev, r :: rest, h => by
    rcases List.pairwise_cons.mp h with ⟨hr, hrest⟩
    have htail : dedupYield (some r.1) rest = rest := by
      rw [dedupYield_eq_dropPrev (some r.1) rest hrest]
      cases rest with
      | nil => rfl
      | cons s t =>
        have : ¬ (some r.1 = some s.1) := by
          intro hc
          exact hr s (List.mem_cons_self s t) (Option.some.inj hc)
        simp [dropPrev, this]
    rw [dedupYield, htail, dropPrev]
    by_cases h' : prev = some r.1 <;> simp [h']

theorem dropPrev_append {α : Type} [DecidableEq α] (prev : Option α)
    (l₁ l₂ : List (α × List Nat)) (h : l₁ ≠ []) :
    dropPrev prev l₁ ++ l₂ = dropPrev prev (l₁ ++ l₂) := by
  cases l₁ with
  | nil => exact absurd rfl h
  | cons r rest =>
    rw [List.cons_append, dropPrev, dropPrev]
    by_cases h' : prev = some r.1 <;> simp [h']

/-- Exactness of the chunked scan loop for `K ≥ 2`: starting from any
anchor state satisfying the loop invariant (`prev` is either unset or
equals the inclusive lower bound), with enough fuel, the loop terminates
and yields exactly the rows of the requested range, minus the
already-returned edge row. -/
theorem subscan_exact {α : Type} [LinearOrder α] (tbl : List (α × List Nat))
    (kmax : Option α) (K : Nat) (hK : 2 ≤ K)
    (hsort : tbl.Pairwise (fun a b => a.1 < b.1))
    (hblob : ∀ r ∈ tbl, blobOK r = true) :
    ∀ (fuel : Nat) (kmin prev : Option α),
      (tbl.filter (fun r => inRange kmin kmax r.1)).length + 1 ≤ fuel →
      (∀ p, prev = some p → kmin = some p) →
      subscanFuel tbl kmax K fuel kmin prev
        = (dropPrev prev (tbl.filter (fun r => inRange kmin kmax r.1)), true) := by
  intro fuel
  induction fuel with
  | zero => intro kmin prev hlen _; omega
  | succ fuel ih =>
    intro kmin prev hlen hinv
    set R := tbl.filter (fun r => inRange kmin kmax r.1) with hR
    have hRsort : R.Pairwise (fun a b => a.1 < b.1) := hsort.filter _
    have hrows_eq : scanKminmax tbl kmin kmax K = R.take K := by
      rw [scanKminmax, sqlChunk, ← hR]
      exact List.filter_eq_self.mpr
        (fun r hr => hblob r (List.mem_of_mem_filter (List.mem_of_mem_take hr)))
    simp only [subscanFuel, hrows_eq]
    by_cases hlt : (R.take K).length < K
    · have hRlen : R.length < K := by
        have := List.length_take K R
        omega
      have htake : R.take K = R := List.take_of_length_le (le_of_lt hRlen)
      rw [if_pos hlt, htake,
        dedupYield_eq_dropPrev prev R (hRsort.imp (fun h => ne_of_lt h))]
    · rw [if_neg hlt]
      have hrowlen : (R.take K).length = K := by
        have := List.length_take K R
        omega
      have hKR : K ≤ R.length := by
        have := List.length_take K R
        omega
      have hrows_ne : R.take K ≠ [] := by
        have : 0 < (R.take K).length := by omega
        exact List.length_pos.mp this
      set rows := R.take K with hrowsdef
      set rest := R.drop K with hrestdef
      set lst := rows.getLast hrows_ne with hlst
      have hsplit : rows ++ rest = R := List.take_append_drop K R
      have hdecomp : rows.dropLast ++ [lst] = rows := List.dropLast_append_getLast hrows_ne
      have hlast? : rows.getLast? = some lst := List.getLast?_eq_getLast rows hrows_ne
      have hlastkey : lastKey prev rows = some lst.1 := by
        rw [lastKey, hlast?]
      have hlst_mem_R : lst ∈ R := List.mem_of_mem_take (List.getLast_mem hrows_ne)
      have hlst_inRange : inRange kmin kmax lst.1 = true := by
        have hmem : lst ∈ tbl.filter (fun r => inRange kmin kmax r.1) := hR ▸ hlst_mem_R
        exact (List.mem_filter.mp hmem).2
      have hmq : ∀ m, kmin = some m → m ≤ lst.1 := by
        intro m hm
        rw [hm] at hlst_inRange
        simp only [inRange, Bool.and_eq_true, decide_eq_true_eq] at hlst_inRange
        exact hlst_inRange.1
      have hpt : ∀ r ∈ tbl,
          inRange (some lst.1) kmax r.1 = (decide (lst.1 ≤ r.1) && inRange kmin kmax r.1) := by
        intro r _
        cases hk : kmin with
        | none => simp [inRange]
        | some m =>
          have hmle : m ≤ lst.1 := hmq m hk
          by_cases hq : lst.1 ≤ r.1
          · simp [inRange, hq, le_trans hmle hq]
          · simp [inRange, hq]
      have hRdecomp : R = rows.dropLast ++ lst :: rest := by
        rw [← hsplit]
        conv_lhs => rw [← hdecomp]
        rw [List.append_assoc, List.singleton_append]
      have hpairsplit := List.pairwise_append.mp (hRdecomp ▸ hRsort)
      have hpairrows := List.pairwise_append.mp (hsplit ▸ hRsort)
      have hfilter_R : R.filter (fun r => decide (lst.1 ≤ r.1)) = lst :: rest := by
        rw [hRdecomp, List.filter_append]
        have hfront : (rows.dropLast).filter (fun r => decide (lst.1 ≤ r.1)) = [] := by
          rw [List.filter_eq_nil_iff]
          intro x hx
          have hxlt : x.1 < lst.1 :=
            hpairsplit.2.2 x hx lst (List.mem_cons_self lst rest)
          simp [not_le.mpr hxlt]
        have hrest : rest.filter (fun r => decide (lst.1 ≤ r.1)) = rest := by
          apply List.filter_eq_self.mpr
          intro y hy
          have : lst.1 < y.1 :=
            hpairrows.2.2 lst (List.getLast_mem hrows_ne) y hy
          simp [le_of_lt this]
        rw [hfront, List.nil_append]
        simp [hrest]
      have hnewR : tbl.filter (fun r => inRange (some lst.1) kmax r.1) = lst :: rest := by
        rw [List.filter_congr hpt, ← List.filter_filter, ← hR]
        exact hfilter_R
      have hlenR : R.length = K + rest.length := by
        have := congrArg List.length hsplit
        rw [List.length_append] at this
        omega
      have hlen' : (tbl.filter (fun r => inRange (some lst.1) kmax r.1)).length + 1 ≤ fuel := by
        rw [hnewR, List.length_cons]
        omega
      have ihres := ih (some lst.1) (some lst.1) hlen' (fun _ hp => hp)
      rw [hnewR] at ihres
      have hdrop : dropPrev (some lst.1) (lst :: rest) = rest := by
        simp [dropPrev]
      rw [hdrop] at ihres
      rw [hlastkey, ihres]
      have hys : dedupYield prev rows = dropPrev prev rows :=
        dedupYield_eq_dropPrev prev rows
          ((hRsort.sublist (List.take_sublist K R)).imp (fun h => ne_of_lt h))
      rw [hys, dropPrev_append prev rows rest hrows_ne, hsplit]

theorem dropPrev_none {α : Type} [DecidableEq α] (l : List (α × List Nat)) :
    dropPrev none l = l := by
  cases l <;> simp [dropPrev]

/-- With `scan_inner_limit = 1` and at least one row in range, each chunk
after the first returns exactly the previously returned edge key again:
the de-duplicated yield is empty, `count = 1` is never `< 1`, and the loop
spins forever on the same anchor.  This is the fixed point: from anchor
`(some 5, some 5)` the loop never terminates, whatever the fuel. -/
theorem subscan_limit_one_stuck :
    ∀ fuel : Nat,
      subscanFuel [((5 : Nat), ([] : List Nat))] none 1 fuel (some 5) (some 5)
        = ([], false) := by
  intro fuel
  induction fuel with
  | zero => rfl
  | succ fuel ih =>
    have hrows : scanKminmax [((5 : Nat), ([] : List Nat))] (some 5) none 1 = [(5, [])] := by
      decide
    simp only [subscanFuel]
    rw [hrows]
    simp [dedupYield, lastKey, ih]

/-- In a strictly sorted row list every key is bounded by the last key. -/
theorem sorted_getLast_max {α : Type} [LinearOrder α] {ν : Type}
    (l : List (α × ν)) (h : l ≠ [])
    (hsort : l.Pairwise (fun a b => a.1 < b.1)) :
    ∀ x ∈ l, x.1 ≤ (l.getLast h).1 := by
  intro x hx
  have hsplit := List.dropLast_append_getLast h
  rw [← hsplit] at hx hsort
  rcases List.mem_append.mp hx with hx' | hx'
  · exact le_of_lt
      ((List.pairwise_append.mp hsort).2.2 x hx' _ (List.mem_singleton_self _))
  · rw [List.mem_singleton.mp hx']

/-- Rows surviving the edge de-duplication against `prev = some p` have
keys strictly above `p`, provided the chunk is sorted with all keys at
least `p` (which holds when the chunk was queried with `k >= p`). -/
theorem dedupYield_gt {α : Type} [LinearOrder α] (p : α)
    (l : List (α × List Nat))
    (hsort : l.Pairwise (fun a b => a.1 < b.1))
    (hlb : ∀ r ∈ l, p ≤ r.1) :
    ∀ r ∈ dedupYield (some p) l, p < r.1 := by
  cases l with
  | nil => intro r hr; cases hr
  | cons a t =>
    intro r hr
    rw [dedupYield] at hr
    rcases List.mem_append.mp hr with hr' | hr'
    · by_cases hpa : (some p : Option α) = some a.1
      · rw [if_pos hpa] at hr'; cases hr'
      · rw [if_neg hpa] at hr'
        rw [List.mem_singleton.mp hr']
        have : p ≠ a.1 := fun hc => hpa (by rw [hc])
        exact lt_of_le_of_ne (hlb a (List.mem_cons_self a t)) this
    · have hrt : r ∈ t := (dedupYield_sublist (some a.1) t).mem hr'
      exact lt_of_le_of_lt (hlb a (List.mem_cons_self a t))
        (List.rel_of_pairwise_cons hsort hrt)

/-- Sortedness of the chunked scan output: from any state satisfying the
loop invariant, with any fuel and any chunk limit `K`, the rows yielded
by `_scan_subscan_kminmax` are in strictly ascending key order, and all
of them are strictly above the already-returned edge key. -/
theorem subscan_sorted {α : Type} [LinearOrder α] (tbl : List (α × List Nat))
    (kmax : Option α) (K : Nat)
    (hsort : tbl.Pairwise (fun a b => a.1 < b.1)) :
    ∀ (fuel : Nat) (kmin prev : Option α),
      (∀ p, prev = some p → kmin = some p) →
      (subscanFuel tbl kmax K fuel kmin prev).1.Pairwise (fun a b => a.1 < b.1)
        ∧ ∀ r ∈ (subscanFuel tbl kmax K fuel kmin prev).1,
            ∀ p, prev = some p → p < r.1 := by
  intro fuel
  induction fuel with
  | zero =>
    intro kmin prev _
    exact ⟨List.Pairwise.nil, fun r hr => absurd hr (List.not_mem_nil r)⟩
  | succ fuel ih =>
    intro kmin prev hinv
    simp only [subscanFuel]
    have hrsort : (scanKminmax tbl kmin kmax K).Pairwise (fun a b => a.1 < b.1) :=
      ((hsort.filter _).sublist (List.take_sublist K _)).filter blobOK
    have hrowsR : ∀ r ∈ scanKminmax tbl kmin kmax K, inRange kmin kmax r.1 = true := by
      intro r hr
      have h1 : r ∈ (tbl.filter (fun r => inRange kmin kmax r.1)).take K :=
        List.mem_of_mem_filter hr
      exact (List.mem_filter.mp (List.mem_of_mem_take h1)).2
    have hlb : ∀ p, prev = some p → ∀ r ∈ scanKminmax tbl kmin kmax K, p ≤ r.1 := by
      intro p hp r hr
      have hk := hinv p hp
      have hir := hrowsR r hr
      rw [hk] at hir
      simp only [inRange, Bool.and_eq_true, decide_eq_true_eq] at hir
      exact hir.1
    have hys_gt : ∀ r ∈ dedupYield prev (scanKminmax tbl kmin kmax K),
        ∀ p, prev = some p → p < r.1 := by
      intro r hr p hp
      subst hp
      exact dedupYield_gt p _ hrsort (hlb p rfl) r hr
    have hys_sort : (dedupYield prev (scanKminmax tbl kmin kmax K)).Pairwise
        (fun a b => a.1 < b.1) :=
      hrsort.sublist (dedupYield_sublist prev _)
    by_cases hlt : (scanKminmax tbl kmin kmax K).length < K
    · rw [if_pos hlt]
      exact ⟨hys_sort, hys_gt⟩
    · rw [if_neg hlt]
      by_cases hrows_nil : scanKminmax tbl kmin kmax K = []
      · rw [hrows_nil]
        simp only [dedupYield, List.nil_append, lastKey, List.getLast?_nil]
        obtain ⟨ihs, ihb⟩ := ih prev prev (fun _ hp => hp)
        exact ⟨ihs, fun r hr p hp => ihb r hr p hp⟩
      · have hne : scanKminmax tbl kmin kmax K ≠ [] := hrows_nil
        have hlast? := List.getLast?_eq_getLast (scanKminmax tbl kmin kmax K) hne
        have hlk : lastKey prev (scanKminmax tbl kmin kmax K)
            = some ((scanKminmax tbl kmin kmax K).getLast hne).1 := by
          rw [lastKey, hlast?]
        obtain ⟨ihs, ihb⟩ := ih (lastKey prev (scanKminmax tbl kmin kmax K))
          (lastKey prev (scanKminmax tbl kmin kmax K)) (fun _ hp => hp)
        have hq_gt : ∀ r ∈ (subscanFuel tbl kmax K fuel
            (lastKey prev (scanKminmax tbl kmin kmax K))
            (lastKey prev (scanKminmax tbl kmin kmax K))).1,
            ((scanKminmax tbl kmin kmax K).getLast hne).1 < r.1 := by
          intro r hr
          exact ihb r hr _ hlk
        constructor
        · rw [List.pairwise_append]
          refine ⟨hys_sort, ihs, ?_⟩
          intro x hx y hy
          have hx_rows : x ∈ scanKminmax tbl kmin kmax K :=
            (dedupYield_sublist prev _).mem hx
          exact lt_of_le_of_lt
            (sorted_getLast_max _ hne hrsort x hx_rows) (hq_gt y hy)
        · intro r hr p hp
          rcases List.mem_append.mp hr with hr' | hr'
          · exact hys_gt r hr' p hp
          · have hql : p ≤ ((scanKminmax tbl kmin kmax K).getLast hne).1 :=
              hlb p hp _ (List.getLast_mem hne)
            exact lt_of_le_of_lt hql (hq_gt r hr')

/-- Batching loop invariant: the concatenation of the sent batches and
the pending batch, prefixed by what is yet to be consumed, is constant.
Consequently a `put` loses and reorders nothing. -/
theorem hbase_fold_join (maxB : Nat) :
    ∀ (kvs : List (List Nat × List Nat))
      (s : List (List (List Nat × List Nat))) (b : List (List Nat × List Nat)) (c : Nat),
      (List.foldl (hbasePutStep maxB) (s, b, c) kvs).1.flatten
          ++ (List.foldl (hbasePutStep maxB) (s, b, c) kvs).2.1
        = s.flatten ++ b ++ kvs
  | [], s, b, c => by simp
  | kv :: rest, s, b, c => by
    rw [List.foldl_cons, hbasePutStep]
    by_cases hf : maxB ≤ kv.2.length + kv.1.length + c
    · rw [if_pos hf, hbase_fold_join maxB rest]
      simp
    · rw [if_neg hf, hbase_fold_join maxB rest]
      simp

/-- Batching loop invariant: `cur_bytes` dominates the byte footprint of
the pending batch. -/
theorem hbase_fold_bytes (maxB : Nat) :
    ∀ (kvs : List (List Nat × List Nat))
      (s : List (List (List Nat × List Nat))) (b : List (List Nat × List Nat)) (c : Nat),
      morelenSum b ≤ c →
      morelenSum (List.foldl (hbasePutStep maxB) (s, b, c) kvs).2.1
        ≤ (List.foldl (hbasePutStep maxB) (s, b, c) kvs).2.2
  | [], _, _, _, h => h
  | kv :: rest, s, b, c, h => by
    rw [List.foldl_cons, hbasePutStep]
    by_cases hf : maxB ≤ kv.2.length + kv.1.length + c
    · rw [if_pos hf]
      exact hbase_fold_bytes maxB rest _ _ _ (by simp [morelenSum])
    · rw [if_neg hf]
      refine hbase_fold_bytes maxB rest _ _ _ ?_
      have : ∀ l kv', morelenSum (l ++ [kv'])
          = morelenSum l + (kv'.2.length + kv'.1.length) := by
        intro l kv'
        induction l with
        | nil => simp [morelenSum]
        | cons x xs ihx => simp [morelenSum, ihx]; omega
      rw [this]
      omega

/-- Batching loop invariant: either `cur_bytes` is under the budget, or
the pending batch holds a single (necessarily oversized) item. -/
theorem hbase_fold_under (maxB : Nat) :
    ∀ (kvs : List (List Nat × List Nat))
      (s : List (List (List Nat × List Nat))) (b : List (List Nat × List Nat)) (c : Nat),
      (c < maxB ∨ b.length ≤ 1) →
      ((List.foldl (hbasePutStep maxB) (s, b, c) kvs).2.2 < maxB
        ∨ (List.foldl (hbasePutStep maxB) (s, b, c) kvs).2.1.length ≤ 1)
  | [], _, _, _, h => h
  | kv :: rest, s, b, c, h => by
    rw [List.foldl_cons, hbasePutStep]
    by_cases hf : maxB ≤ kv.2.length + kv.1.length + c
    · rw [if_pos hf]
      exact hbase_fold_under maxB rest _ _ _ (Or.inr (by simp))
    · rw [if_neg hf]
      exact hbase_fold_under maxB rest _ _ _ (Or.inl (by omega))

/-- After consuming at least one item the pending batch is nonempty
(every loop iteration ends with `batch.put(...)`). -/
theorem hbase_fold_batch_ne (maxB : Nat) :
    ∀ (kvs : List (List Nat × List Nat))
      (s : List (List (List Nat × List Nat))) (b : List (List Nat × List Nat)) (c : Nat),
      kvs ≠ [] →
      (List.foldl (hbasePutStep maxB) (s, b, c) kvs).2.1 ≠ []
  | [], _, _, _, h => absurd rfl h
  | kv :: rest, s, b, c, _ => by
    rw [List.foldl_cons, hbasePutStep]
    by_cases hrest : rest = []
    · subst hrest
      by_cases hf : maxB ≤ kv.2.length + kv.1.length + c
      · rw [if_pos hf]; simp
      · rw [if_neg hf]; simp
    · by_cases hf : maxB ≤ kv.2.length + kv.1.length + c
      · rw [if_pos hf]; exact hbase_fold_batch_ne maxB rest _ _ _ hrest
      · rw [if_neg hf]; exact hbase_fold_batch_ne maxB rest _ _ _ hrest

/-- Every batched `put` with items of positive byte footprint dispatches
each input pair exactly once, in order. -/
theorem hbasePut_join (maxB : Nat) (kvs : List (List Nat × List Nat))
    (hpos : ∀ kv ∈ kvs, 0 < kv.2.length + kv.1.length) :
    (hbasePut maxB kvs).flatten = kvs := by
  rw [hbasePut]
  have hjoin := hbase_fold_join maxB kvs [] [] 0
  simp only [List.flatten_nil, List.nil_append] at hjoin
  by_cases hc : 0 < (List.foldl (hbasePutStep maxB) ([], [], 0) kvs).2.2
  · rw [if_pos hc, List.flatten_append]
    simpa using hjoin
  · rw [if_neg hc]
    have hbytes := hbase_fold_bytes maxB kvs [] [] 0 (le_refl 0)
    have hb_nil : (List.foldl (hbasePutStep maxB) ([], [], 0) kvs).2.1 = [] := by
      by_contra hb
      cases hbb : (List.foldl (hbasePutStep maxB) ([], [], 0) kvs).2.1 with
      | nil => exact hb hbb
      | cons x xs =>
        have hx : x ∈ kvs := by
          have : x ∈ (List.foldl (hbasePutStep maxB) ([], [], 0) kvs).1.flatten
              ++ (List.foldl (hbasePutStep maxB) ([], [], 0) kvs).2.1 := by
            rw [hbb]
            exact List.mem_append_right _ (List.mem_cons_self x xs)
          rw [hjoin] at this
          exact this
        have := hpos x hx
        rw [hbb] at hbytes
        simp only [morelenSum] at hbytes
        omega
    rw [hb_nil, List.append_nil] at hjoin
    exact hjoin

/-- In a table with pairwise distinct keys, the rows matching one key
form the empty list or a singleton holding that key. -/
theorem filter_key_cases {α : Type} [DecidableEq α] {ν : Type} :
    ∀ (store : List (α × ν)),
      store.Pairwise (fun a b => a.1 ≠ b.1) → ∀ k : α,
      store.filter (fun r => decide (r.1 = k)) = []
        ∨ ∃ r, store.filter (fun r => decide (r.1 = k)) = [r] ∧ r.1 = k
  | [], _, _ => Or.inl rfl
  | a :: t, h, k => by
    rcases List.pairwise_cons.mp h with ⟨ha, ht⟩
    by_cases hak : a.1 = k
    · refine Or.inr ⟨a, ?_, hak⟩
      rw [List.filter_cons, if_pos (by simp [hak])]
      have htnil : t.filter (fun r => decide (r.1 = k)) = [] := by
        rw [List.filter_eq_nil_iff]
        intro x hx
        simp only [decide_eq_true_eq]
        intro hxk
        exact ha x hx (by rw [hak, ← hxk])
      rw [htnil]
    · rw [List.filter_cons, if_neg (by simp [hak])]
      exact filter_key_cases t ht k

/-- `PGStorage.get` on a well-formed store (distinct keys in index order,
values within the blob cap) yields exactly one pair per requested key, in
request order: the stored value when present, the `None` sentinel when
absent. -/
theorem pgGet_eq_map {α : Type} [LinearOrder α] (store : List (α × List Nat))
    (keys : List α)
    (hsort : keysSorted store = true) (hblob : store.all blobOK = true) :
    pgGet store keys = keys.map (fun k => (k, pgLookup store k)) := by
  induction keys with
  | nil => rfl
  | cons k rest ihr =>
    rw [pgGet, List.flatMap_cons, List.map_cons]
    rw [pgGet] at ihr
    rw [ihr]
    have hne : store.Pairwise (fun a b => a.1 ≠ b.1) :=
      (keysSorted_pairwise hsort).imp (fun h => ne_of_lt h)
    rcases filter_key_cases store hne k with hnil | ⟨r, hone, hrk⟩
    · simp [pgLookup, hnil]
    · have hmem : r ∈ store := by
        have hr1 : r ∈ store.filter (fun r => decide (r.1 = k)) := by
          rw [hone]; exact List.mem_singleton_self r
        exact List.mem_of_mem_filter hr1
      have hok : r.2.length ≤ MAX_BLOB_BYTES := by
        have := (List.all_eq_true.mp hblob) r hmem
        simpa [blobOK] using this
      have hnlt : ¬ MAX_BLOB_BYTES < r.2.length := not_lt.mpr hok
      simp [pgLookup, hone, hnlt, hrk]

/-- The scan range `(k, k)` selects exactly the rows keyed `k`. -/
theorem hbaseScan_point {α : Type} [LinearOrder α] {ν : Type}
    (tbl : List (α × ν)) (k : α) :
    hbaseScan tbl (some k) (some k) = tbl.filter (fun r => decide (r.1 = k)) := by
  rw [hbaseScan]
  apply List.filter_congr
  intro r _
  by_cases h : r.1 = k
  · simp [inRange, h]
  · by_cases h1 : k ≤ r.1
    · have h2 : ¬ r.1 ≤ k := fun hc => h (le_antisymm hc h1)
      simp [inRange, h1, h2, h]
    · simp [inRange, h1, h]

/-- The `v = None; for kk, vv in gen: if kk == key: v = vv` loop keeps the
last matching value. -/
theorem foldl_last_match {α : Type} [DecidableEq α] {ν : Type} (k : α) :
    ∀ (l : List (α × ν)) (acc : Option ν), (∀ r ∈ l, r.1 = k) →
      l.foldl (fun v r => if r.1 = k then some r.2 else v) acc
        = (match l.getLast? with
           | some r => some r.2
           | none => acc)
  | [], _, _ => rfl
  | a :: t, acc, hall => by
    rw [List.foldl_cons,
      foldl_last_match k t _ (fun r hr => hall r (List.mem_cons_of_mem a hr))]
    cases t with
    | nil => simp [hall a (List.mem_cons_self a [])]
    | cons b t' =>
      rw [List.getLast?_cons_cons]
      have hne : b :: t' ≠ [] := by simp
      rw [List.getLast?_eq_getLast (b :: t') hne]

/-- `HBaseStorage.get` yields exactly one pair per requested key, in
request order: the last stored value for the key (there is at most one
row per key in an HBase table) or the `None` sentinel. -/
theorem hbaseGet_eq_map {α : Type} [LinearOrder α] {ν : Type}
    (tbl : List (α × ν)) (keys : List α) :
    hbaseGet tbl keys = keys.map (fun k => (k, hbLookup tbl k)) := by
  rw [hbaseGet]
  apply List.map_congr_left
  intro k _
  rw [hbaseScan_point]
  rw [foldl_last_match k _ none
    (fun r hr => by simpa using (List.mem_filter.mp hr).2)]
  rw [hbLookup]
  cases (tbl.filter (fun r => decide (r.1 = k))).getLast? with
  | none => rfl
  | some r => rfl

/-- A connectionless client reconnects with a fresh handle on the next
`_conn()` call. -/
theorem pgConnGet_none (st : PGSt) (h : st.connection = none) :
    pgConnGet st = (st.nextConn,
      { st with connection := some st.nextConn, nextConn := st.nextConn + 1 }) := by
  rw [pgConnGet, h]

/-- `_conn()` reuses an existing connection unchanged. -/
theorem pgConnGet_some (st : PGSt) (c : Nat) (h : st.connection = some c) :
    pgConnGet st = (c, st) := by
  rw [pgConnGet, h]

/-- `_conn()` always leaves the client attached and changes nothing but
the connection fields. -/
theorem pgConnGet_fields (st : PGSt) :
    (pgConnGet st).2.nsExists = st.nsExists
      ∧ (pgConnGet st).2.upsertFn = st.upsertFn
      ∧ (pgConnGet st).2.rows = st.rows
      ∧ (pgConnGet st).2.tableNames = st.tableNames
      ∧ (pgConnGet st).2.connection.isSome = true := by
  cases hc : st.connection <;> simp [pgConnGet, hc]

/-- The validation loop of `put` raises `BadKey` whenever some pair's key
arity mismatches the spec. -/
theorem pgPutGo_error (t : String) (spec : Nat) :
    ∀ (kvs : List (List Nat × List Nat)) (st : PGSt),
      (∃ kv ∈ kvs, kv.1.length ≠ spec) →
      (pgPutGo t spec kvs st).1 = Except.error KVError.badKey
  | [], _, h => by simp at h
  | kv :: rest, st, h => by
    rw [pgPutGo]
    by_cases hk : kv.1.length = spec
    · rw [checkPutKeyValue, if_pos hk]
      rcases h with ⟨kv', hmem, hne⟩
      rcases List.mem_cons.mp hmem with heq | hmem'
      · exact absurd (by rw [heq]; exact hk) hne
      · exact pgPutGo_error t spec rest _ ⟨kv', hmem', hne⟩
    · rw [checkPutKeyValue, if_neg hk]

/-- Unfolding of `delete_namespace` on the model state. -/
theorem pgDelete_unfold (st : PGSt) :
    pgDeleteNamespace st
      = if (pgConnGet st).2.nsExists then
          { (pgConnGet st).2 with nsExists := false, upsertFn := false, rows := [] }
        else (pgConnGet st).2 := rfl

theorem pgDelete_nsExists (st : PGSt) : (pgDeleteNamespace st).nsExists = false := by
  rw [pgDelete_unfold]
  by_cases h : (pgConnGet st).2.nsExists
  · rw [if_pos h]
  · rw [if_neg h]
    simpa using h

theorem pgDelete_conn (st : PGSt) : (pgDeleteNamespace st).connection.isSome = true := by
  rw [pgDelete_unfold]
  have h5 := (pgConnGet_fields st).2.2.2.2
  by_cases h : (pgConnGet st).2.nsExists
  · rw [if_pos h]; exact h5
  · rw [if_neg h]; exact h5

theorem foldl_const {β γ : Type} : ∀ (l : List γ) (acc : β),
    List.foldl (fun a _ => a) acc l = acc
  | [], _ => rfl
  | _ :: xs, acc => foldl_const xs acc

/-- Python's `re.match` on `_psql_identifier_re` succeeds exactly when
some leading slice of the name fully matches the identifier pattern. -/
theorem validNamespace_iff_leading_match (x : List Char) :
    validNamespace x = true
      ↔ ∃ pre suf : List Char, x = pre ++ suf ∧ identFullMatch pre = true := by
  constructor
  · intro h
    cases x with
    | nil => simp [validNamespace] at h
    | cons c rest =>
      refine ⟨[c], rest, rfl, ?_⟩
      rw [identFullMatch]
      simpa [validNamespace] using h
  · rintro ⟨pre, suf, hx, hm⟩
    cases pre with
    | nil => simp [identFullMatch] at hm
    | cons c pre' =>
      rw [hx, List.cons_append, validNamespace]
      rw [identFullMatch, Bool.and_eq_true] at hm
      exact hm.1

/-- The replacement map of `insertReplace` never changes an entry's key. -/
theorem insertReplace_key_of (q p : String × Nat) :
    (if q.1 = p.1 then p else q).1 = q.1 := by
  by_cases h : q.1 = p.1
  · rw [if_pos h, h]
  · rw [if_neg h]

/-- After `insertReplace acc p`, the key of `p` is present. -/
theorem insertReplace_self (acc : List (String × Nat)) (p : String × Nat) :
    (insertReplace acc p).any (fun q => decide (q.1 = p.1)) = true := by
  rw [insertReplace]
  by_cases h : acc.any (fun q => decide (q.1 = p.1))
  · rw [if_pos h, List.any_map]
    have hp : ((fun (q : String × Nat) => decide (q.1 = p.1))
          ∘ (fun q => if q.1 = p.1 then p else q))
        = (fun q => decide (q.1 = p.1)) := by
      funext q
      simp only [Function.comp_apply, insertReplace_key_of]
    rw [hp]
    exact h
  · rw [if_neg h, List.any_append]
    simp

/-- `insertReplace` preserves the presence of every key. -/
theorem insertReplace_mono (acc : List (String × Nat)) (p : String × Nat)
    (k : String) (h : acc.any (fun q => decide (q.1 = k)) = true) :
    (insertReplace acc p).any (fun q => decide (q.1 = k)) = true := by
  rw [insertReplace]
  by_cases hp : acc.any (fun q => decide (q.1 = p.1))
  · rw [if_pos hp, List.any_map]
    have hfun : ((fun (q : String × Nat) => decide (q.1 = k))
          ∘ (fun q => if q.1 = p.1 then p else q))
        = (fun q => decide (q.1 = k)) := by
      funext q
      simp only [Function.comp_apply, insertReplace_key_of]
    rw [hfun]
    exact h
  · rw [if_neg hp, List.any_append, h]
    rfl

/-- After `insertReplace acc p` every entry carrying `p`'s key is `p`
itself. -/
theorem insertReplace_entry (acc : List (String × Nat)) (p : String × Nat) :
    ∀ q ∈ insertReplace acc p, q.1 = p.1 → q = p := by
  intro q hq hk
  rw [insertReplace] at hq
  by_cases hp : acc.any (fun q => decide (q.1 = p.1))
  · rw [if_pos hp] at hq
    rcases List.mem_map.mp hq with ⟨orig, _, horig⟩
    by_cases ho : orig.1 = p.1
    · rw [← horig, if_pos ho]
    · rw [← horig, if_neg ho] at hk ⊢
      exact absurd hk ho
  · rw [if_neg hp] at hq
    rcases List.mem_append.mp hq with hq' | hq'
    · exfalso
      have : acc.any (fun q => decide (q.1 = p.1)) = true :=
        List.any_eq_true.mpr ⟨q, hq', by simp [hk]⟩
      exact hp this
    · exact List.mem_singleton.mp hq'

/-- `insertReplace` with a different key leaves entries of key `k`
untouched (they already were in the list). -/
theorem insertReplace_avoid (acc : List (String × Nat)) (p : String × Nat)
    (k : String) (hpk : p.1 ≠ k) :
    ∀ q ∈ insertReplace acc p, q.1 = k → q ∈ acc := by
  intro q hq hk
  rw [insertReplace] at hq
  by_cases hp : acc.any (fun q => decide (q.1 = p.1))
  · rw [if_pos hp] at hq
    rcases List.mem_map.mp hq with ⟨orig, hmem, horig⟩
    by_cases ho : orig.1 = p.1
    · rw [← horig, if_pos ho] at hk
      exact absurd hk hpk
    · rw [← horig, if_neg ho]
      exact hmem
  · rw [if_neg hp] at hq
    rcases List.mem_append.mp hq with hq' | hq'
    · exact hq'
    · rw [List.mem_singleton.mp hq'] at hk
      exact absurd hk hpk

/-- `insertReplace` is the identity when the key is present with every
occurrence already equal to `p`. -/
theorem insertReplace_noop (acc : List (String × Nat)) (p : String × Nat)
    (hany : acc.any (fun q => decide (q.1 = p.1)) = true)
    (hall : ∀ q ∈ acc, q.1 = p.1 → q = p) :
    insertReplace acc p = acc := by
  rw [insertReplace, if_pos hany]
  have : ∀ q ∈ acc, (if q.1 = p.1 then p else q) = q := by
    intro q hq
    by_cases h : q.1 = p.1
    · rw [if_pos h, hall q hq h]
    · rw [if_neg h]
  rw [List.map_congr_left this]
  exact List.map_id acc

/-- Key presence survives a whole `dict.update`. -/
theorem updateAssoc_mono :
    ∀ (T l : List (String × Nat)) (k : String),
      l.any (fun q => decide (q.1 = k)) = true →
      (updateAssoc l T).any (fun q => decide (q.1 = k)) = true
  | [], _, _, h => h
  | p :: rest, l, k, h =>
    updateAssoc_mono rest (insertReplace l p) k (insertReplace_mono l p k h)

/-- Every key of the update argument is present afterwards. -/
theorem updateAssoc_has :
    ∀ (T l : List (String × Nat)) (p : String × Nat), p ∈ T →
      (updateAssoc l T).any (fun q => decide (q.1 = p.1)) = true
  | [], _, _, h => absurd h (List.not_mem_nil _)
  | p' :: rest, l, p, h => by
    rcases List.mem_cons.mp h with heq | hmem
    · subst heq
      exact updateAssoc_mono rest (insertReplace l p) p.1 (insertReplace_self l p)
    · exact updateAssoc_has rest (insertReplace l p') p hmem

/-- An update all of whose entries avoid key `k` leaves key-`k` entries
where they were. -/
theorem updateAssoc_avoid :
    ∀ (T l : List (String × Nat)) (k : String), (∀ p ∈ T, p.1 ≠ k) →
      ∀ q ∈ updateAssoc l T, q.1 = k → q ∈ l
  | [], _, _, _, _, hq, _ => hq
  | p' :: rest, l, k, havoid, q, hq, hk => by
    have hq' : q ∈ insertReplace l p' :=
      updateAssoc_avoid rest (insertReplace l p') k
        (fun p hp => havoid p (List.mem_cons_of_mem p' hp)) q hq hk
    exact insertReplace_avoid l p' k (havoid p' (List.mem_cons_self p' rest)) q hq' hk

/-- After `dict.update` with a duplicate-free mapping, each updated key
maps to exactly its new value (all occurrences equal the update entry). -/
theorem updateAssoc_entry (T l : List (String × Nat))
    (hT : (T.map Prod.fst).Nodup) (p : String × Nat) (hp : p ∈ T) :
    ∀ q ∈ updateAssoc l T, q.1 = p.1 → q = p := by
  rcases List.append_of_mem hp with ⟨pre, post, hsplit⟩
  subst hsplit
  intro q hq hk
  rw [updateAssoc, List.foldl_append, List.foldl_cons] at hq
  have hpost : ∀ p' ∈ post, p'.1 ≠ p.1 := by
    intro p' hp' hc
    rw [List.map_append, List.map_cons] at hT
    have h2 := (List.nodup_append.mp hT).2.1
    rw [List.nodup_cons] at h2
    exact h2.1 (hc ▸ List.mem_map_of_mem Prod.fst hp')
  have hq' : q ∈ insertReplace (List.foldl insertReplace l pre) p :=
    updateAssoc_avoid post _ p.1 hpost q hq hk
  exact insertReplace_entry _ p q hq' hk

/-- `dict.update` with the same duplicate-free mapping twice equals doing
it once. -/
theorem updateAssoc_idem :
    ∀ (T l : List (String × Nat)), (T.map Prod.fst).Nodup →
      updateAssoc (updateAssoc l T) T = updateAssoc l T
  | [], _, _ => rfl
  | p :: rest, l, hT => by
    rw [List.map_cons, List.nodup_cons] at hT
    have hrest_avoid : ∀ p' ∈ rest, p'.1 ≠ p.1 := by
      intro p' hp' hc
      exact hT.1 (hc ▸ List.mem_map_of_mem Prod.fst hp')
    have hany : (updateAssoc (insertReplace l p) rest).any
        (fun q => decide (q.1 = p.1)) = true :=
      updateAssoc_mono rest (insertReplace l p) p.1 (insertReplace_self l p)
    have hall : ∀ q ∈ updateAssoc (insertReplace l p) rest, q.1 = p.1 → q = p := by
      intro q hq hk
      exact insertReplace_entry l p q
        (updateAssoc_avoid rest (insertReplace l p) p.1 hrest_avoid q hq hk) hk
    show updateAssoc (updateAssoc (insertReplace l p) rest) (p :: rest)
        = updateAssoc (insertReplace l p) rest
    rw [updateAssoc, List.foldl_cons]
    rw [show List.foldl insertReplace
          (insertReplace (updateAssoc (insertReplace l p) rest) p) rest
        = updateAssoc (insertReplace (updateAssoc (insertReplace l p) rest) p) rest
        from rfl]
    rw [insertReplace_noop _ p hany hall]
    exact updateAssoc_idem rest (insertReplace l p) hT.2

theorem PGSt_set_tableNames_self (st : PGSt) :
    { st with tableNames := st.tableNames } = st := by
  cases st
  rfl

/-- Unfolding of `setup_namespace` on the model state. -/
theorem pgSetup_unfold (T : List (String × Nat)) (st : PGSt) :
    pgSetupNamespace T st
      = (if (pgConnGet { st with tableNames := updateAssoc st.tableNames T }).2.nsExists
          then (pgConnGet { st with tableNames := updateAssoc st.tableNames T }).2
          else { (pgConnGet { st with tableNames := updateAssoc st.tableNames T }).2 with
                 nsExists := true, upsertFn := true }) := rfl

/-- `setup_namespace` never touches rows, sets the namespace as existing,
merges the table names, and leaves the client attached. -/
theorem pgSetup_fields (T : List (String × Nat)) (st : PGSt) :
    (pgSetupNamespace T st).rows = st.rows
      ∧ (pgSetupNamespace T st).tableNames = updateAssoc st.tableNames T
      ∧ (pgSetupNamespace T st).nsExists = true
      ∧ (pgSetupNamespace T st).connection.isSome = true := by
  have hf := pgConnGet_fields { st with tableNames := updateAssoc st.tableNames T }
  rw [pgSetup_unfold]
  by_cases h : (pgConnGet { st with tableNames := updateAssoc st.tableNames T }).2.nsExists
  · rw [if_pos h]
    exact ⟨hf.2.2.1, hf.2.2.2.1, h, hf.2.2.2.2⟩
  · rw [if_neg h]
    exact ⟨hf.2.2.1, hf.2.2.2.1, rfl, hf.2.2.2.2⟩

/-- Running `setup_namespace` twice with the same duplicate-free mapping
equals running it once. -/
theorem pgSetup_idem (T : List (String × Nat)) (st : PGSt)
    (hT : (T.map Prod.fst).Nodup) :
    pgSetupNamespace T (pgSetupNamespace T st) = pgSetupNamespace T st := by
  have h1 := pgSetup_fields T st
  obtain ⟨c, hc⟩ := Option.isSome_iff_exists.mp h1.2.2.2
  have htn : { pgSetupNamespace T st with
        tableNames := updateAssoc (pgSetupNamespace T st).tableNames T }
      = pgSetupNamespace T st := by
    rw [h1.2.1, updateAssoc_idem T st.tableNames hT, ← h1.2.1,
      PGSt_set_tableNames_self]
  rw [pgSetup_unfold T (pgSetupNamespace T st), htn, pgConnGet_some _ c hc]
  simp [h1.2.2.1]

/-- `hbCreateIfAbsent` preserves key presence and establishes its own
key. -/
theorem hbCreate_mono {ρ : Type} (acc : List (String × List ρ)) (t k : String)
    (h : acc.any (fun q => decide (q.1 = k)) = true) :
    (hbCreateIfAbsent acc t).any (fun q => decide (q.1 = k)) = true := by
  rw [hbCreateIfAbsent]
  by_cases hp : acc.any (fun q => decide (q.1 = t))
  · rw [if_pos hp]; exact h
  · rw [if_neg hp, List.any_append, h]; rfl

theorem hbCreate_self {ρ : Type} (acc : List (String × List ρ)) (t : String) :
    (hbCreateIfAbsent acc t).any (fun q => decide (q.1 = t)) = true := by
  rw [hbCreateIfAbsent]
  by_cases hp : acc.any (fun q => decide (q.1 = t))
  · rw [if_pos hp]; exact hp
  · rw [if_neg hp, List.any_append]; simp

/-- The wide-column `setup_namespace` only appends fresh empty tables. -/
theorem hbSetup_extends {ρ : Type} :
    ∀ (T : List String) (tbls : List (String × List ρ)),
      ∃ extra, hbSetupNamespace tbls T = tbls ++ extra
        ∧ ∀ e ∈ extra, e.2 = ([] : List ρ)
  | [], tbls => ⟨[], by simp [hbSetupNamespace], by simp⟩
  | t :: rest, tbls => by
    rw [hbSetupNamespace, List.foldl_cons, hbCreateIfAbsent]
    by_cases hp : tbls.any (fun q => decide (q.1 = t))
    · rw [if_pos hp]
      exact hbSetup_extends rest tbls
    · rw [if_neg hp]
      rcases hbSetup_extends rest (tbls ++ [(t, [])]) with ⟨extra, hx, hall⟩
      refine ⟨(t, []) :: extra, ?_, ?_⟩
      · rw [hbSetupNamespace] at hx
        rw [hx, List.append_assoc, List.singleton_append]
      · intro e he
        rcases List.mem_cons.mp he with heq | hmem
        · rw [heq]
        · exact hall e hmem

/-- Key presence survives the whole wide-column `setup_namespace`. -/
theorem hbSetup_mono {ρ : Type} :
    ∀ (T : List String) (tbls : List (String × List ρ)) (k : String),
      tbls.any (fun q => decide (q.1 = k)) = true →
      (hbSetupNamespace tbls T).any (fun q => decide (q.1 = k)) = true
  | [], _, _, h => h
  | t :: rest, tbls, k, h =>
    hbSetup_mono rest (hbCreateIfAbsent tbls t) k (hbCreate_mono tbls t k h)

/-- Every requested table exists after the wide-column
`setup_namespace`. -/
theorem hbSetup_has {ρ : Type} :
    ∀ (T : List String) (tbls : List (String × List ρ)) (t : String), t ∈ T →
      (hbSetupNamespace tbls T).any (fun q => decide (q.1 = t)) = true
  | [], _, _, h => absurd h (List.not_mem_nil _)
  | t' :: rest, tbls, t, h => by
    rw [hbSetupNamespace, List.foldl_cons]
    rcases List.mem_cons.mp h with heq | hmem
    · subst heq
      exact hbSetup_mono rest (hbCreateIfAbsent tbls t) t (hbCreate_self tbls t)
    · exact hbSetup_has rest (hbCreateIfAbsent tbls t') t hmem

/-- Once every requested table is present, the wide-column
`setup_namespace` is a no-op. -/
theorem hbSetup_noop {ρ : Type} :
    ∀ (T : List String) (tbls : List (String × List ρ)),
      (∀ t ∈ T, tbls.any (fun q => decide (q.1 = t)) = true) →
      hbSetupNamespace tbls T = tbls
  | [], _, _ => rfl
  | t :: rest, tbls, h => by
    rw [hbSetupNamespace, List.foldl_cons, hbCreateIfAbsent,
      if_pos (h t (List.mem_cons_self t rest))]
    exact hbSetup_noop rest tbls (fun t' ht' => h t' (List.mem_cons_of_mem t ht'))

/-- The wide-column `setup_namespace` is idempotent. -/
theorem hbSetup_idem {ρ : Type} (T : List String) (tbls : List (String × List ρ)) :
    hbSetupNamespace (hbSetupNamespace tbls T) T = hbSetupNamespace tbls T :=
  hbSetup_noop T (hbSetupNamespace tbls T) (fun t ht => hbSetup_has T tbls t ht)

/-- `FileStorage.setup_namespace` is idempotent. -/
theorem fileSetup_idem {ρ : Type} (d : List (String × List ρ)) (T : List String) :
    fileSetupNamespace (fileSetupNamespace d T) T = fileSetupNamespace d T := by
  by_cases hd : d.isEmpty
  · have hinner : fileSetupNamespace d T = T.map (fun t => (t, ([] : List ρ))) := by
      rw [fileSetupNamespace, if_pos hd]
    rw [hinner, fileSetupNamespace]
    by_cases h2 : (T.map (fun t => (t, ([] : List ρ)))).isEmpty
    · rw [if_pos h2]
    · rw [if_neg h2]
  · have hinner : fileSetupNamespace d T = d := by
      rw [fileSetupNamespace, if_neg hd]
    rw [hinner]
    exact hinner

/-- Everything the chunked scan yields is a stored row that passed the
blob-size check. -/
theorem subscan_subset {α : Type} [LinearOrder α] (tbl : List (α × List Nat))
    (kmax : Option α) (K : Nat) :
    ∀ (fuel : Nat) (kmin prev : Option α) (r : α × List Nat),
      r ∈ (subscanFuel tbl kmax K fuel kmin prev).1 →
      r ∈ tbl ∧ blobOK r = true
  | 0, _, _, r, h => absurd h (List.not_mem_nil r)
  | fuel + 1, kmin, prev, r, h => by
    have hrows : ∀ s ∈ scanKminmax tbl kmin kmax K, s ∈ tbl ∧ blobOK s = true := by
      intro s hs
      refine ⟨?_, List.of_mem_filter hs⟩
      have h1 : s ∈ (tbl.filter (fun x => inRange kmin kmax x.1)).take K :=
        List.mem_of_mem_filter hs
      exact List.mem_of_mem_filter (List.mem_of_mem_take h1)
    simp only [subscanFuel] at h
    by_cases hlt : (scanKminmax tbl kmin kmax K).length < K
    · rw [if_pos hlt] at h
      exact hrows r ((dedupYield_sublist prev _).mem h)
    · rw [if_neg hlt] at h
      rcases List.mem_append.mp h with h' | h'
      · exact hrows r ((dedupYield_sublist prev _).mem h')
      · exact subscan_subset tbl kmax K fuel _ _ r h'

/-- In a strictly key-sorted list there is at most one row per key. -/
theorem sorted_key_unique {α : Type} [LinearOrder α] {ν : Type} :
    ∀ (l : List (α × ν)), l.Pairwise (fun a b => a.1 < b.1) →
      ∀ {r s : α × ν}, r ∈ l → s ∈ l → r.1 = s.1 → r = s
  | [], _, _, _, hr, _, _ => absurd hr (List.not_mem_nil _)
  | a :: t, hsort, r, s, hr, hs, hk => by
    rcases List.pairwise_cons.mp hsort with ⟨ha, ht⟩
    rcases List.mem_cons.mp hr with hr' | hr' <;>
      rcases List.mem_cons.mp hs with hs' | hs'
    · rw [hr', hs']
    · exfalso
      have := ha s hs'
      rw [← hr', hk] at this
      exact lt_irrefl _ this
    · exfalso
      have := ha r hr'
      rw [← hs', ← hk] at this
      exact lt_irrefl _ this
    · exact sorted_key_unique t ht hr' hs' hk

theorem morelenSum_lower (kvs : List (List Nat × List Nat))
    (h : ∀ kv ∈ kvs, 200 ≤ kv.2.length + kv.1.length) :
    200 * kvs.length ≤ morelenSum kvs := by
  induction kvs with
  | nil => simp [morelenSum]
  | cons kv rest ihr =>
    have h1 := h kv (List.mem_cons_self kv rest)
    have h2 := ihr (fun x hx => h x (List.mem_cons_of_mem kv hx))
    simp only [morelenSum, List.length_cons]
    have : 200 * (rest.length + 1) = 200 * rest.length + 200 := by ring
    omega

end Kvlayer

section ClaimTheorems

open Kvlayer

/-- C1 (amended).  Relational chunked scan correctness for
`scan_inner_limit = K ≥ 2`: on a table whose rows are in strictly
ascending key order with values within `MAX_BLOB_BYTES`, the chunked scan
loop of `PGStorage._scan_subscan_kminmax` — one `ORDER BY k ASC LIMIT K`
query per chunk, re-anchored at `k >= last_key_returned` with the edge key
de-duplicated, stopping when a chunk returns strictly fewer than `K` rows
— terminates and yields exactly the rows of the requested range, with no
duplicates and no gaps.  (The original claim also asserted this for
`K = 1`; that case does not terminate, see `C1_counterexample`.) -/
theorem C1_chunked_scan_correct {α : Type} [LinearOrder α]
    (tbl : List (α × List Nat)) (kmin kmax : Option α) (K : Nat)
    (hsort : keysSorted tbl = true)
    (hblob : tbl.all blobOK = true)
    (hK : 2 ≤ K) :
    pgScanRange tbl kmin kmax K
      = (tbl.filter (fun r => inRange kmin kmax r.1), true) := by
  rw [pgScanRange,
    subscan_exact tbl kmax K hK (keysSorted_pairwise hsort)
      (fun r hr => (List.all_eq_true.mp hblob) r hr)
      (tbl.length + 2) kmin none
      (by have := List.length_filter_le (fun r => inRange kmin kmax r.1) tbl; omega)
      (fun p hp => Option.noConfusion hp),
    dropPrev_none]

/-- Witness for C1: a three-row table scanned with `scan_inner_limit = 2`
returns all three rows, in order, and terminates. -/
theorem C1_chunked_scan_correct_witness :
    pgScanRange [((1 : Nat), ([] : List Nat)), (2, []), (3, [])] none none 2
      = ([(1, []), (2, []), (3, [])], true) := by
  rw [C1_chunked_scan_correct [((1 : Nat), ([] : List Nat)), (2, []), (3, [])]
    none none 2 (by decide) (by decide) (by decide)]
  decide

/-- Counterexample to C1 as stated: with `scan_inner_limit = K = 1` and a
single row in range, the loop never reaches its termination condition.
Every chunk after the first returns exactly the edge row again, so
`count = 1` is never `< K = 1`.  The first conjunct shows the run with the
standard fuel budget does not terminate; the second shows no fuel budget
whatsoever makes it terminate — the source loop runs forever instead of
yielding exactly the `N = 1` keys and stopping. -/
theorem C1_counterexample :
    (pgScanRange [((5 : Nat), ([] : List Nat))] none none 1).2 = false ∧
    ∀ fuel : Nat,
      (subscanFuel [((5 : Nat), ([] : List Nat))] none 1 fuel none none).2 = false := by
  refine ⟨by decide, ?_⟩
  intro fuel
  cases fuel with
  | zero => rfl
  | succ fuel =>
    have hrows : scanKminmax [((5 : Nat), ([] : List Nat))] none none 1 = [(5, [])] := by
      decide
    simp only [subscanFuel]
    rw [hrows]
    simp [dedupYield, lastKey, subscan_limit_one_stuck fuel]

/-- C2.  Wide-column byte-capped batching.  `HBaseStorage.put`
accumulates `len(key) + len(value)` per pending write; whenever adding
the next item would reach or exceed the `max_batch_bytes` budget the
current batch is sent before that item is added (second conjunct — in
particular whenever it would strictly exceed it); after all inputs are
consumed any batch with a positive byte count is sent (definition of
`hbasePut`), so every input pair appears in the dispatched batches
exactly once and in order (first conjunct, hence every row is readable
afterwards); and 10 rows of 200-byte values under `max_batch_bytes =
1024` dispatch at least two physical batches (third conjunct). -/
theorem C2_byte_capped_batching (kvs : List (List Nat × List Nat))
    (h10 : kvs.length = 10) (h200 : ∀ kv ∈ kvs, kv.2.length = 200) :
    (∀ (maxB : Nat) (kvs' : List (List Nat × List Nat)),
        (∀ kv ∈ kvs', 0 < kv.2.length + kv.1.length) →
        (hbasePut maxB kvs').flatten = kvs')
    ∧ (∀ (maxB : Nat)
        (st : List (List (List Nat × List Nat)) × List (List Nat × List Nat) × Nat)
        (kv : List Nat × List Nat),
        maxB ≤ st.2.2 + (kv.2.length + kv.1.length) →
        hbasePutStep maxB st kv
          = (st.1 ++ [st.2.1], [kv], kv.2.length + kv.1.length))
    ∧ 2 ≤ (hbasePut 1024 kvs).length := by
  refine ⟨fun maxB kvs' hpos => hbasePut_join maxB kvs' hpos, ?_, ?_⟩
  · rintro maxB ⟨sent, batch, cur⟩ kv hflush
    have hflush' : maxB ≤ cur + (kv.2.length + kv.1.length) := hflush
    rw [hbasePutStep, if_pos (by omega)]
  · have h200' : ∀ kv ∈ kvs, 200 ≤ kv.2.length + kv.1.length := by
      intro kv hkv
      have := h200 kv hkv
      omega
    have hhj := hbase_fold_join 1024 kvs [] [] 0
    simp only [List.flatten_nil, List.nil_append] at hhj
    have hbytes := hbase_fold_bytes 1024 kvs [] [] 0 (le_refl 0)
    have hunder := hbase_fold_under 1024 kvs [] [] 0 (Or.inr (by simp))
    have hbne : (List.foldl (hbasePutStep 1024) ([], [], 0) kvs).2.1 ≠ [] := by
      apply hbase_fold_batch_ne
      intro hnil
      rw [hnil] at h10
      simp at h10
    rw [hbasePut]
    by_cases hc : 0 < (List.foldl (hbasePutStep 1024) ([], [], 0) kvs).2.2
    · rw [if_pos hc, List.length_append, List.length_singleton]
      by_cases hsnil : (List.foldl (hbasePutStep 1024) ([], [], 0) kvs).1 = []
      · exfalso
        rw [hsnil, List.flatten_nil, List.nil_append] at hhj
        have hlen10 : (List.foldl (hbasePutStep 1024) ([], [], 0) kvs).2.1.length = 10 := by
          rw [hhj]; exact h10
        rcases hunder with hcu | hb1
        · have hsum := morelenSum_lower
            (List.foldl (hbasePutStep 1024) ([], [], 0) kvs).2.1
            (fun kv hkv => h200' kv (hhj ▸ hkv))
          rw [hlen10] at hsum
          omega
        · omega
      · have : 0 < (List.foldl (hbasePutStep 1024) ([], [], 0) kvs).1.length :=
          List.length_pos.mpr hsnil
        omega
    · exfalso
      cases hbb : (List.foldl (hbasePutStep 1024) ([], [], 0) kvs).2.1 with
      | nil => exact hbne hbb
      | cons x xs =>
        have hx : x ∈ kvs := by
          rw [← hhj]
          exact List.mem_append_right _ (by rw [hbb]; exact List.mem_cons_self x xs)
        have := h200' x hx
        rw [hbb] at hbytes
        simp only [morelenSum] at hbytes
        omega

set_option maxRecDepth 10000 in
/-- Witness for C2: ten rows with distinct single-byte keys and 200-byte
values are batched under `max_batch_bytes = 1024` into at least two
dispatched batches, and their concatenation is the input. -/
theorem C2_byte_capped_batching_witness :
    (((List.range 10).map (fun i => ([i], List.replicate 200 0))).length = 10
        ∧ ∀ kv ∈ (List.range 10).map (fun i => ([i], List.replicate 200 (0 : Nat))),
            kv.2.length = 200)
    ∧ 2 ≤ (hbasePut 1024
        ((List.range 10).map (fun i => ([i], List.replicate 200 0)))).length :=
  ⟨⟨by decide, by decide⟩,
    (C2_byte_capped_batching _ (by decide) (by decide)).2.2⟩

/-- C3.  Scan monotonicity: on a table in ascending key order, the rows
yielded by the relational chunked scan (`_scan_subscan_kminmax`, for any
requested range, chunk limit and fuel) are in strictly ascending key
order, and so are the rows returned by the wide-column backend's native
range scan.  In particular this holds for `PGStorage.scan`'s per-range
output (third conjunct). -/
theorem C3_scan_monotonic {α : Type} [LinearOrder α] {ν : Type}
    (pgTbl : List (α × List Nat)) (kmin kmax : Option α) (K fuel : Nat)
    (hbTbl : List (α × ν)) (srow erow : Option α)
    (hpg : keysSorted pgTbl = true) (hhb : keysSorted hbTbl = true) :
    (subscanFuel pgTbl kmax K fuel kmin none).1.Pairwise (fun a b => a.1 < b.1)
      ∧ (hbaseScan hbTbl srow erow).Pairwise (fun a b => a.1 < b.1)
      ∧ (pgScanRange pgTbl kmin kmax K).1.Pairwise (fun a b => a.1 < b.1) :=
  ⟨(subscan_sorted pgTbl kmax K (keysSorted_pairwise hpg) fuel kmin none
      (fun _ hp => Option.noConfusion hp)).1,
   (keysSorted_pairwise hhb).filter _,
   (subscan_sorted pgTbl kmax K (keysSorted_pairwise hpg) (pgTbl.length + 2) kmin none
      (fun _ hp => Option.noConfusion hp)).1⟩

/-- Witness for C3: a concrete three-row table scanned with chunk limit 2
on the relational side and a two-row wide-column table scanned over
`[2, 4]`. -/
theorem C3_scan_monotonic_witness :
    (subscanFuel [((1 : Nat), ([] : List Nat)), (3, []), (7, [])] none 2 5 none none).1.Pairwise
        (fun a b => a.1 < b.1)
      ∧ (hbaseScan [((2 : Nat), 10), (4, 20)] (some 2) (some 4)).Pairwise
        (fun a b => a.1 < b.1)
      ∧ (pgScanRange [((1 : Nat), ([] : List Nat)), (3, []), (7, [])] none none 2).1.Pairwise
        (fun a b => a.1 < b.1) :=
  C3_scan_monotonic [((1 : Nat), ([] : List Nat)), (3, []), (7, [])] none none 2 5
    [((2 : Nat), 10), (4, 20)] (some 2) (some 4) (by decide) (by decide)

/-- C4 (amended).  Per-key `get` on the relational and wide-column
backends: for every list of requested keys, `get` yields exactly one
`(key, value_or_absent)` pair per key, in request order, with the `None`
sentinel for absent keys, and never fails because of a missing key —
provided (relational backend) the store is well formed: distinct keys in
index order and no stored value above `MAX_BLOB_BYTES`.  The original
claim's "on every backend" fails: the file backend's `get` raises
`MissingID` for a missing key, and the relational `get` yields no pair at
all for a key whose stored value exceeds `MAX_BLOB_BYTES` (see
`C4_counterexample`). -/
theorem C4_get_per_key {α : Type} [LinearOrder α] {ν : Type}
    (store : List (α × List Nat)) (keys : List α)
    (hsort : keysSorted store = true) (hblob : store.all blobOK = true)
    (hbTbl : List (α × ν)) (hbKeys : List α) :
    pgGet store keys = keys.map (fun k => (k, pgLookup store k))
      ∧ hbaseGet hbTbl hbKeys = hbKeys.map (fun k => (k, hbLookup hbTbl k)) :=
  ⟨pgGet_eq_map store keys hsort hblob, hbaseGet_eq_map hbTbl hbKeys⟩

/-- Witness for C4: a concrete relational store and wide-column table;
present keys yield their value, absent keys yield the sentinel, one pair
per requested key, in request order. -/
theorem C4_get_per_key_witness :
    pgGet [((1 : Nat), [9]), (4, [7])] [4, 2] = [(4, some [7]), (2, none)]
      ∧ hbaseGet [((2 : Nat), 5)] [2, 3] = [(2, some 5), (3, none)] := by
  have h := C4_get_per_key [((1 : Nat), [9]), (4, [7])] [4, 2] (by decide) (by decide)
    [((2 : Nat), 5)] [2, 3]
  exact ⟨h.1.trans (by decide), h.2.trans (by decide)⟩

/-- Counterexample to C4 as stated.  First conjunct: `FileStorage.get`
(the file backend) raises `MissingID` instead of yielding a "missing"
sentinel when the requested key `5` is absent — so `get` can fail on a
missing key.  Second conjunct: the relational `get` yields no pair at all
(not even a sentinel) for a requested key whose stored value exceeds
`MAX_BLOB_BYTES`, so it does not yield exactly one pair per requested
key. -/
theorem C4_counterexample :
    fileGet [((3 : Nat), (0 : Nat))] [(5, 5)] = Except.error ()
      ∧ pgGet [((5 : Nat), List.replicate (MAX_BLOB_BYTES + 1) 0)] [5] = [] := by
  constructor
  · rfl
  · rw [pgGet, List.flatMap_cons, List.flatMap_nil, List.filter_cons]
    norm_num [MAX_BLOB_BYTES]

/-- C5 (amended).  A BadKey failure during `put` on the relational
backend is raised at the call boundary (the caller sees
`Except.error badKey`), but — contrary to the original claim — it *does*
affect the connection: `put` is wrapped in `detatch_on_exception`, which
closes the client on *any* exception, so after `put` raises on a key
arity mismatch the connection is cleared (`none`), and the next operation
reconnects lazily with a fresh handle. -/
theorem C5_badkey_raises_and_detaches (st : PGSt) (t : String) (spec : Nat)
    (kvs : List (List Nat × List Nat))
    (hspec : lookupAssoc st.tableNames t = some spec)
    (hbad : ∃ kv ∈ kvs, kv.1.length ≠ spec) :
    (pgPut t kvs st).1 = Except.error KVError.badKey
      ∧ (pgPut t kvs st).2.connection = none
      ∧ (pgConnGet (pgPut t kvs st).2).2.connection
          = some (pgPut t kvs st).2.nextConn := by
  have herr : (pgPutBody t kvs st).1 = Except.error KVError.badKey := by
    rw [pgPutBody, hspec]
    exact pgPutGo_error t spec kvs _ hbad
  have hstep : pgPut t kvs st
      = (Except.error KVError.badKey, pgClose (pgPutBody t kvs st).2) := by
    rw [pgPut, detatchOnException]
    rcases hres : pgPutBody t kvs st with ⟨r, st'⟩
    rw [hres] at herr
    cases r with
    | ok a => exact absurd herr (by simp)
    | error e =>
      have he : e = KVError.badKey := by simpa using herr
      rw [he]
  rw [hstep]
  refine ⟨rfl, rfl, ?_⟩
  rw [pgConnGet_none (pgClose (pgPutBody t kvs st).2) rfl]

/-- Witness for C5 (amended): a concrete client with an attached
connection; `put` of a 1-fragment key into a table declared with
2-fragment keys raises BadKey and leaves the connection cleared, and the
next `_conn()` call opens handle 1. -/
theorem C5_badkey_raises_and_detaches_witness :
    (pgPut "t1" [([1], [0])]
        { connection := some 0, nextConn := 1, nsExists := true, upsertFn := true,
          tableNames := [("t1", 2)], rows := [] }).1 = Except.error KVError.badKey
      ∧ (pgPut "t1" [([1], [0])]
        { connection := some 0, nextConn := 1, nsExists := true, upsertFn := true,
          tableNames := [("t1", 2)], rows := [] }).2.connection = none
      ∧ (pgConnGet (pgPut "t1" [([1], [0])]
        { connection := some 0, nextConn := 1, nsExists := true, upsertFn := true,
          tableNames := [("t1", 2)], rows := [] }).2).2.connection
          = some (pgPut "t1" [([1], [0])]
        { connection := some 0, nextConn := 1, nsExists := true, upsertFn := true,
          tableNames := [("t1", 2)], rows := [] }).2.nextConn :=
  C5_badkey_raises_and_detaches
    { connection := some 0, nextConn := 1, nsExists := true, upsertFn := true,
      tableNames := [("t1", 2)], rows := [] }
    "t1" 2 [([1], [0])] (by rfl) ⟨([1], [0]), List.mem_singleton_self _, by decide⟩

/-- Counterexample to C5 as stated: on a client whose connection is
attached (`some 0`), `put` of a key with the wrong arity raises BadKey —
and afterwards the connection is *not* attached: `detatch_on_exception`
closed and cleared it. -/
theorem C5_counterexample :
    (pgPut "t1" [([1], [0])]
        { connection := some 0, nextConn := 1, nsExists := true, upsertFn := true,
          tableNames := [("t1", 2)], rows := [] }).1 = Except.error KVError.badKey
      ∧ ¬ (pgPut "t1" [([1], [0])]
        { connection := some 0, nextConn := 1, nsExists := true, upsertFn := true,
          tableNames := [("t1", 2)], rows := [] }).2.connection.isSome = true := by
  exact ⟨rfl, by decide⟩

/-- C6 (amended).  Relational connection detach holds for the *eagerly
executed* data operations (`put`, `delete`, `clear_table`,
`setup_namespace`, `delete_namespace`): their bodies run inside
`detatch_on_exception`'s `try`, so on an unexpected error the wrapper
closes and clears the connection (the next `_conn()` reconnects lazily
with a fresh handle) and re-raises the original error, while a
successful body passes through untouched.  Contrary to the original
claim's "for every data operation", it does *not* hold for the generator
operations `get` and `scan`: the decorator's `try` only guards creation
of the generator object, so an error raised while the caller iterates
propagates without `self.close()` and the connection state is exactly
whatever the body left — it is not cleared (see `C6_counterexample`). -/
theorem C6_detach_eager_only {E A : Type} (f : PGSt → Except E A × PGSt)
    (st : PGSt) :
    (∀ (e : E) (st' : PGSt), f st = (Except.error e, st') →
        detatchOnException f st = (Except.error e, pgClose st')
          ∧ (detatchOnException f st).2.connection = none
          ∧ (pgConnGet (detatchOnException f st).2).2.connection
              = some (detatchOnException f st).2.nextConn)
      ∧ (∀ (a : A) (st' : PGSt), f st = (Except.ok a, st') →
          detatchOnException f st = f st)
      ∧ (∀ (e : E) (st' : PGSt), f st = (Except.error e, st') →
          detatchOnExceptionGen f st = (Except.error e, st')
            ∧ (detatchOnExceptionGen f st).2.connection = st'.connection) := by
  refine ⟨?_, ?_, ?_⟩
  · intro e st' h
    have hd : detatchOnException f st = (Except.error e, pgClose st') := by
      rw [detatchOnException, h]
    refine ⟨hd, by rw [hd]; rfl, ?_⟩
    rw [hd]
    rw [pgConnGet_none (pgClose st') rfl]
  · intro a st' h
    rw [detatchOnException, h]
  · intro e st' h
    rw [detatchOnExceptionGen, h]
    exact ⟨rfl, rfl⟩

/-- Witness for C6 (amended): a body that fails with error `0` on an
attached client.  The eager wrapper re-raises it and clears the
connection; the generator wrapper re-raises it and leaves the connection
attached. -/
theorem C6_detach_eager_only_witness :
    detatchOnException (fun s : PGSt => ((Except.error 0 : Except Nat Unit), s))
        { connection := some 7, nextConn := 8, nsExists := true, upsertFn := true,
          tableNames := [], rows := [] }
      = (Except.error 0,
          { connection := none, nextConn := 8, nsExists := true, upsertFn := true,
            tableNames := [], rows := [] })
      ∧ (detatchOnExceptionGen (fun s : PGSt => ((Except.error 0 : Except Nat Unit), s))
        { connection := some 7, nextConn := 8, nsExists := true, upsertFn := true,
          tableNames := [], rows := [] }).2.connection = some 7 :=
  ⟨((C6_detach_eager_only (fun s : PGSt => ((Except.error 0 : Except Nat Unit), s))
      { connection := some 7, nextConn := 8, nsExists := true, upsertFn := true,
        tableNames := [], rows := [] }).1 0 _ rfl).1,
   by rw [((C6_detach_eager_only (fun s : PGSt => ((Except.error 0 : Except Nat Unit), s))
      { connection := some 7, nextConn := 8, nsExists := true, upsertFn := true,
        tableNames := [], rows := [] }).2.2 0 _ rfl).1]⟩

/-- Counterexample to C6 as stated: `get` and `scan` are generator
functions, so their deployed form is `detatchOnExceptionGen` around the
body.  A driver error raised while the caller iterates such an operation
on a client whose connection is attached (`some 7`) is re-raised to the
caller, but the connection is *not* closed and cleared — it is still
`some 7`, not `none` — so "for every data operation ... the backend
closes and clears its connection" is false of the program. -/
theorem C6_counterexample :
    detatchOnExceptionGen (fun s : PGSt => ((Except.error 0 : Except Nat Unit), s))
        { connection := some 7, nextConn := 8, nsExists := true, upsertFn := true,
          tableNames := [], rows := [] }
      = (Except.error 0,
          { connection := some 7, nextConn := 8, nsExists := true, upsertFn := true,
            tableNames := [], rows := [] })
      ∧ ¬ (detatchOnExceptionGen (fun s : PGSt => ((Except.error 0 : Except Nat Unit), s))
        { connection := some 7, nextConn := 8, nsExists := true, upsertFn := true,
          tableNames := [], rows := [] }).2.connection = none := by
  exact ⟨rfl, by simp [detatchOnExceptionGen]⟩

/-- C8.  `delete_namespace` is idempotent, removes all tables and data,
and is a no-op that succeeds when the namespace does not exist.  On the
relational backend: applying it twice equals applying it once; afterwards
the namespace table is gone; when it existed, its rows and the
`upsert_{namespace}` routine are gone too; when it did not exist, nothing
changes beyond the lazy connection being materialised, and no error is
raised (the model is total — the source logs and swallows drop errors).
On the wide-column backend: every listed table is dropped, so the result
holds no tables, and repeating the call (over the now-empty listing) is a
no-op. -/
theorem C8_delete_namespace_idempotent :
    (∀ st : PGSt,
        pgDeleteNamespace (pgDeleteNamespace st) = pgDeleteNamespace st
          ∧ (pgDeleteNamespace st).nsExists = false
          ∧ (st.nsExists = true →
              (pgDeleteNamespace st).rows = []
                ∧ (pgDeleteNamespace st).upsertFn = false)
          ∧ (st.nsExists = false → pgDeleteNamespace st = (pgConnGet st).2))
      ∧ ∀ (ρ : Type) (tbls : List (String × List ρ)),
          hbDeleteNamespace (hbDeleteNamespace tbls) = hbDeleteNamespace tbls
            ∧ hbDeleteNamespace tbls = [] := by
  constructor
  · intro st
    have hfields := pgConnGet_fields st
    refine ⟨?_, pgDelete_nsExists st, ?_, ?_⟩
    · obtain ⟨c, hc⟩ := Option.isSome_iff_exists.mp (pgDelete_conn st)
      rw [pgDelete_unfold (pgDeleteNamespace st), pgConnGet_some _ c hc,
        pgDelete_nsExists st]
      simp
    · intro hns
      have h : (pgConnGet st).2.nsExists = true := by rw [hfields.1, hns]
      rw [pgDelete_unfold, if_pos h]
      exact ⟨rfl, rfl⟩
    · intro hns
      have h : (pgConnGet st).2.nsExists = false := by rw [hfields.1, hns]
      rw [pgDelete_unfold, if_neg (by rw [h]; exact Bool.false_ne_true)]
  · intro ρ tbls
    constructor
    · rw [hbDeleteNamespace, hbDeleteNamespace, foldl_const, foldl_const]
    · rw [hbDeleteNamespace, foldl_const]

/-- Witness for C8: deleting a concrete one-row namespace twice equals
deleting it once, removes the rows and the routine, and deleting when the
namespace is absent only materialises the connection. -/
theorem C8_delete_namespace_idempotent_witness :
    pgDeleteNamespace (pgDeleteNamespace
        { connection := some 0, nextConn := 1, nsExists := true, upsertFn := true,
          tableNames := [("t1", 1)], rows := [("t1", [1], [2])] })
      = pgDeleteNamespace
        { connection := some 0, nextConn := 1, nsExists := true, upsertFn := true,
          tableNames := [("t1", 1)], rows := [("t1", [1], [2])] }
      ∧ (pgDeleteNamespace
        { connection := some 0, nextConn := 1, nsExists := true, upsertFn := true,
          tableNames := [("t1", 1)], rows := [("t1", [1], [2])] }).rows = []
      ∧ hbDeleteNamespace [("t1", [(1, 2)])] = ([] : List (String × List (Nat × Nat))) :=
  ⟨(C8_delete_namespace_idempotent.1 _).1,
   ((C8_delete_namespace_idempotent.1 _).2.2.1 rfl).1,
   (C8_delete_namespace_idempotent.2 (Nat × Nat) _).2⟩

/-- C9 (amended).  `PGStorage.__init__` validates the namespace with
`bool(re.match(...))`, which checks only that some leading slice matches
the identifier regex: construction fails with the configuration error
(*BadConfig* in the spec's taxonomy, `ProgrammerError` in the source)
exactly when the name is empty or its first character is outside
`[A-Za-z_]`.  Contrary to the original claim, a name that does *not*
fully match `[A-Za-z_][A-Za-z0-9_$]*` but begins with a valid character
— e.g. `a-b` — is accepted (see `C9_counterexample`). -/
theorem C9_namespace_validation (ns : List Char) (addrs : List String)
    (haddr : addrs.isEmpty = false) :
    (validNamespace ns = false → pgInit ns addrs = Except.error KVError.badConfig)
      ∧ (validNamespace ns = true → pgInit ns addrs
          = Except.ok { connection := none, nextConn := 0, nsExists := false,
                        upsertFn := false, tableNames := [], rows := [] })
      ∧ (validNamespace ns = true
          ↔ ∃ pre suf : List Char, ns = pre ++ suf ∧ identFullMatch pre = true) := by
  refine ⟨?_, ?_, validNamespace_iff_leading_match ns⟩
  · intro h
    rw [pgInit, h]
    rfl
  · intro h
    rw [pgInit, h, if_pos rfl, haddr]
    rfl

/-- Witness for C9: `9x` (invalid leading character) is rejected with
BadConfig, `a` is accepted. -/
theorem C9_namespace_validation_witness :
    pgInit ['9', 'x'] ["host=x"] = Except.error KVError.badConfig
      ∧ pgInit ['a'] ["host=x"]
          = Except.ok { connection := none, nextConn := 0, nsExists := false,
                        upsertFn := false, tableNames := [], rows := [] } :=
  ⟨(C9_namespace_validation ['9', 'x'] ["host=x"] rfl).1 (by decide),
   (C9_namespace_validation ['a'] ["host=x"] rfl).2.1 (by decide)⟩

/-- Counterexample to C9 as stated: the name `a-b` does not match the
identifier regex `[A-Za-z_][A-Za-z0-9_$]*` (its second character is `-`),
yet constructing the client succeeds — no BadConfig is raised — because
`_valid_namespace` uses `re.match`, which only requires a matching
leading slice. -/
theorem C9_counterexample :
    identFullMatch ['a', '-', 'b'] = false
      ∧ pgInit ['a', '-', 'b'] ["host=x"]
          = Except.ok { connection := none, nextConn := 0, nsExists := false,
                        upsertFn := false, tableNames := [], rows := [] } := by
  exact ⟨by decide, rfl⟩

/-- C7 (amended).  `setup_namespace` is idempotent on the relational,
wide-column and file backends; on the relational and wide-column
backends a repeat call with a superset of the declared tables extends the
schema with the new tables while leaving all existing data untouched.
Relational: running it twice (same duplicate-free mapping) equals running
it once, rows are never touched, every declared table ends up in the
schema map with exactly its declared key spec.  Wide-column: idempotent;
the physical table list only gains fresh empty tables; every requested
table exists afterwards.  File backend: idempotent, but — contrary to the
original claim — a superset call after any table exists is a no-op that
does *not* create the new tables (see `C7_counterexample`). -/
theorem C7_setup_namespace_idempotent_extends {ρ : Type}
    (T : List (String × Nat)) (st : PGSt) (hT : (T.map Prod.fst).Nodup)
    (tbls : List (String × List ρ)) (names : List String)
    (fdata : List (String × List ρ)) (fT : List String) :
    (pgSetupNamespace T (pgSetupNamespace T st) = pgSetupNamespace T st
      ∧ (pgSetupNamespace T st).rows = st.rows
      ∧ ∀ p ∈ T,
          (pgSetupNamespace T st).tableNames.any (fun q => decide (q.1 = p.1)) = true
            ∧ ∀ q ∈ (pgSetupNamespace T st).tableNames, q.1 = p.1 → q = p)
    ∧ (hbSetupNamespace (hbSetupNamespace tbls names) names = hbSetupNamespace tbls names
      ∧ (∃ extra, hbSetupNamespace tbls names = tbls ++ extra
          ∧ ∀ e ∈ extra, e.2 = ([] : List ρ))
      ∧ ∀ t ∈ names, (hbSetupNamespace tbls names).any (fun q => decide (q.1 = t)) = true)
    ∧ fileSetupNamespace (fileSetupNamespace fdata fT) fT
        = fileSetupNamespace fdata fT := by
  refine ⟨⟨pgSetup_idem T st hT, (pgSetup_fields T st).1, ?_⟩,
    ⟨hbSetup_idem names tbls, hbSetup_extends names tbls, hbSetup_has names tbls⟩,
    fileSetup_idem fdata fT⟩
  intro p hp
  rw [(pgSetup_fields T st).2.1]
  exact ⟨updateAssoc_has T st.tableNames p hp,
    updateAssoc_entry T st.tableNames hT p hp⟩

/-- Witness for C7: one concrete client extended with tables `a` and `b`
on each backend. -/
theorem C7_setup_namespace_idempotent_extends_witness :
    (pgSetupNamespace [("a", 1), ("b", 2)]
        (pgSetupNamespace [("a", 1), ("b", 2)]
          { connection := none, nextConn := 0, nsExists := false, upsertFn := false,
            tableNames := [("a", 1)], rows := [("a", [1], [2])] })
      = pgSetupNamespace [("a", 1), ("b", 2)]
          { connection := none, nextConn := 0, nsExists := false, upsertFn := false,
            tableNames := [("a", 1)], rows := [("a", [1], [2])] })
      ∧ (pgSetupNamespace [("a", 1), ("b", 2)]
          { connection := none, nextConn := 0, nsExists := false, upsertFn := false,
            tableNames := [("a", 1)], rows := [("a", [1], [2])] }).rows
          = [("a", [1], [2])]
      ∧ hbSetupNamespace (hbSetupNamespace [("a", [(1, 2)])] ["a", "b"]) ["a", "b"]
          = hbSetupNamespace [("a", [(1, 2)])] ["a", "b"]
      ∧ hbSetupNamespace [("a", [(1, 2)])] ["a", "b"] = [("a", [(1, 2)]), ("b", [])] := by
  have h := C7_setup_namespace_idempotent_extends
    [("a", 1), ("b", 2)]
    { connection := none, nextConn := 0, nsExists := false, upsertFn := false,
      tableNames := [("a", 1)], rows := [("a", [1], [2])] }
    (by decide)
    [("a", [((1 : Nat), (2 : Nat))])] ["a", "b"]
    ([] : List (String × List (Nat × Nat))) []
  exact ⟨h.1.1, h.1.2.1, h.2.1.1, by decide⟩

/-- Counterexample to C7 as stated: on the file backend, after a
namespace holding table `a` exists, calling `setup_namespace` with the
superset `{a, b}` changes nothing — table `b` is not created — because
`FileStorage.setup_namespace` only creates tables when the store is
completely empty. -/
theorem C7_counterexample :
    fileSetupNamespace [("a", ([] : List (Nat × Nat)))] ["a", "b"] = [("a", [])]
      ∧ (fileSetupNamespace [("a", ([] : List (Nat × Nat)))] ["a", "b"]).any
          (fun q => decide (q.1 = "b")) = false := by
  exact ⟨rfl, by decide⟩

/-- C10.  In the relational backend, a row whose stored value exceeds
`MAX_BLOB_BYTES` is silently omitted from the results of both `get` and
`scan` — the row is skipped entirely, no error is raised (the modelled
operations are total; the source's `continue` branch only logs), and for
`get` the affected key yields no pair at all, not even the missing
sentinel: no output pair of `get`, and no row of the chunked scan (for
any range, chunk limit and fuel), carries the oversized row's key. -/
theorem C10_oversized_blob_dropped {α : Type} [LinearOrder α]
    (store : List (α × List Nat)) (hsort : keysSorted store = true)
    (k : α) (v : List Nat) (hmem : (k, v) ∈ store)
    (hbig : MAX_BLOB_BYTES < v.length)
    (keys : List α) (kmin kmax : Option α) (K fuel : Nat) :
    (∀ p ∈ pgGet store keys, p.1 ≠ k)
      ∧ (∀ r ∈ (subscanFuel store kmax K fuel kmin none).1, r.1 ≠ k)
      ∧ ∀ r ∈ (pgScanRange store kmin kmax K).1, r.1 ≠ k := by
  have huniq := keysSorted_pairwise hsort
  have hscan : ∀ (fl : Nat) (r : α × List Nat),
      r ∈ (subscanFuel store kmax K fl kmin none).1 → r.1 ≠ k := by
    intro fl r hr hk
    rcases subscan_subset store kmax K fl kmin none r hr with ⟨hmem', hok⟩
    have hr_eq : r = (k, v) := sorted_key_unique store huniq hmem' hmem hk
    rw [hr_eq] at hok
    rw [blobOK, decide_eq_true_eq] at hok
    have hok' : v.length ≤ MAX_BLOB_BYTES := hok
    omega
  refine ⟨?_, hscan fuel, hscan (store.length + 2)⟩
  induction keys with
  | nil => intro p hp; cases hp
  | cons k' rest ih =>
    intro p hp
    have hsplit : pgGet store (k' :: rest)
        = (if (store.filter (fun r => decide (r.1 = k'))).isEmpty then [(k', none)]
           else (store.filter (fun r => decide (r.1 = k'))).filterMap
             (fun r => if MAX_BLOB_BYTES < r.2.length then none
                       else some (r.1, some r.2)))
          ++ pgGet store rest := rfl
    rw [hsplit] at hp
    rcases List.mem_append.mp hp with hp' | hp'
    · by_cases hemp : (store.filter (fun r => decide (r.1 = k'))).isEmpty
      · have hpk : p = (k', none) := by
          rw [if_pos hemp] at hp'
          exact List.mem_singleton.mp hp'
        rw [hpk]
        intro hc
        have hc' : k' = k := hc
        have hkv : (k, v) ∈ store.filter (fun r => decide (r.1 = k')) :=
          List.mem_filter.mpr ⟨hmem, by rw [hc']; simp⟩
        rw [List.isEmpty_iff] at hemp
        rw [hemp] at hkv
        cases hkv
      · rw [if_neg hemp] at hp'
        rcases List.mem_filterMap.mp hp' with ⟨r, hrmem, hf⟩
        by_cases hb : MAX_BLOB_BYTES < r.2.length
        · rw [if_pos hb] at hf
          cases hf
        · rw [if_neg hb] at hf
          have hp_eq : p = (r.1, some r.2) := (Option.some.inj hf).symm
          rw [hp_eq]
          intro hc
          have hr_store : r ∈ store := List.mem_of_mem_filter hrmem
          have : r = (k, v) := sorted_key_unique store huniq hr_store hmem hc
          rw [this] at hb
          exact hb hbig
    · exact ih p hp'

set_option maxRecDepth 2000 in
/-- Witness for C10: a store holding a single row keyed `5` whose value
is one byte over `MAX_BLOB_BYTES`; neither `get [5]` nor a full scan
yields any pair keyed `5`. -/
theorem C10_oversized_blob_dropped_witness :
    (∀ p ∈ pgGet [((5 : Nat), List.replicate (MAX_BLOB_BYTES + 1) 0)] [5], p.1 ≠ 5)
      ∧ (∀ r ∈ (subscanFuel [((5 : Nat), List.replicate (MAX_BLOB_BYTES + 1) 0)]
            none 2 4 none none).1, r.1 ≠ 5)
      ∧ ∀ r ∈ (pgScanRange [((5 : Nat), List.replicate (MAX_BLOB_BYTES + 1) 0)]
            none none 2).1, r.1 ≠ 5 :=
  C10_oversized_blob_dropped
    [((5 : Nat), List.replicate (MAX_BLOB_BYTES + 1) 0)] rfl
    5 (List.replicate (MAX_BLOB_BYTES + 1) 0) (List.mem_singleton_self _)
    (by rw [List.length_replicate]; omega)
    [5] none none 2 4

end ClaimTheorems
